import Mathlib

/-!
Verification of the MemoryVisualization interpreter engine (`src/emulator`).

The development is a shallow embedding of the Python sources:

* `src/emulator/runtime/architecture.py` — constants, `MemCell`, `StackFrame`,
  `MemoryModel` (`push_frame`, `pop_frame`, `alloc_stack_var`, `alloc_heap`,
  `_has_enough_space`, `get_addr`);
* `src/emulator/core/base.py` — `EvaluationResult`, `ExecutionContext`,
  per-node contexts stored in the current stack frame;
* `src/emulator/core/expressions.py` — `Literal`, `Variable`, `BinaryOp`,
  `FunctionCall` (the fragment exercised by the claims);
* `src/emulator/core/instructions.py` — `LetBinding`, `CompoundAssignment`,
  `Return`, `WhileLoop`, `Drop`;
* `src/emulator/core/builtins.py` — `MethodCall._execute_push`;
* `src/emulator/runtime/runner.py` — `ProgramRunner` (`step`,
  `_handle_return`, `_handle_block_end`, `_unwind_if_needed`,
  `_calc_frame_size`, `_calc_body_size`, `FunctionDef.param_size`).

Python scalars stored in memory cells (ints, strings such as `"FREED"` and
`"null"`, and `None`) are modelled by the inductive type `Val`.  The flat
memory `self.mem` (a Python list of `MEM_SIZE` cells) is modelled as a total
function `Int → MemCell`; every theorem below constrains addresses to the
list's actual range `[0, MEM_SIZE)`, so the extra points of the function
never matter.  Python exceptions (KeyError, ValueError, MemoryError,
AttributeError, TypeError, IndexError...) are uniformly modelled by `none`
in `Option`-valued translations.
-/

/-- Python scalar values that can live in a memory cell. -/
inductive Val where
  | vnone : Val
  | vint : Int → Val
  | vstr : String → Val
  deriving DecidableEq, Repr

/-- Constant `MEM_SIZE = 26` from `architecture.py`. -/
def MEM_SIZE : Int := 26

/-- Constant `STACK_TOP = MEM_SIZE - 1` from `architecture.py`. -/
def STACK_TOP : Int := MEM_SIZE - 1

/-- Constant `HEAP_BOTTOM = 1` from `architecture.py`. -/
def HEAP_BOTTOM : Int := 1

/-- Constant `STACK_LIMIT = 12` from `architecture.py`. -/
def STACK_LIMIT : Int := 12

/-- The `MemCell` dataclass.  `label` is `Option String` because `Drop`
assigns Python `None` to `label`; the dataclass default is the empty
string. -/
structure MemCell where
  value : Val := .vnone
  label : Option String := some ""
  typ : String := ""
  freed : Bool := false
  is_pointer : Bool := false
  frame_idx : Int := -1
  deriving DecidableEq, Repr

/-- The default cell `MemCell()`. -/
def defaultCell : MemCell := {}

/-- The flat memory `self.mem`, addressed by integers. -/
def Mem := Int → MemCell

/-- Write the `value` field of the cell at address `x` (a Python
`self.mem[x].value = v` statement). -/
def setValue (m : Mem) (x : Int) (v : Val) : Mem :=
  fun y => if y = x then { m y with value := v } else m y

/-- Write the `label` field of the cell at address `x`. -/
def setLabel (m : Mem) (x : Int) (l : Option String) : Mem :=
  fun y => if y = x then { m y with label := l } else m y

/-- Write the `freed` field of the cell at address `x`. -/
def setFreed (m : Mem) (x : Int) (b : Bool) : Mem :=
  fun y => if y = x then { m y with freed := b } else m y

theorem setValue_same (m : Mem) (x : Int) (v : Val) : setValue m x v x = { m x with value := v } := by
  simp [setValue]

theorem setValue_other (m : Mem) (x y : Int) (v : Val) (h : y ≠ x) : setValue m x v y = m y := by
  simp [setValue, h]

theorem setLabel_other (m : Mem) (x y : Int) (l : Option String) (h : y ≠ x) : setLabel m x l y = m y := by
  simp [setLabel, h]

theorem setLabel_value (m : Mem) (x y : Int) (l : Option String) : (setLabel m x l y).value = (m y).value := by
  unfold setLabel; by_cases h : y = x <;> simp [h]

theorem setLabel_freed (m : Mem) (x y : Int) (l : Option String) : (setLabel m x l y).freed = (m y).freed := by
  unfold setLabel; by_cases h : y = x <;> simp [h]

theorem setFreed_same (m : Mem) (x : Int) (b : Bool) : setFreed m x b x = { m x with freed := b } := by
  simp [setFreed]

theorem setFreed_other (m : Mem) (x y : Int) (b : Bool) (h : y ≠ x) : setFreed m x b y = m y := by
  simp [setFreed, h]

theorem setValue_freed (m : Mem) (x y : Int) (v : Val) : (setValue m x v y).freed = (m y).freed := by
  unfold setValue; by_cases h : y = x <;> simp [h]

/-- `MemoryModel._has_enough_space(addr, size)`: the whole run must fit
below `STACK_LIMIT` and every cell in it must be free, where a cell is
considered free when its `value` is `None` or its `freed` flag is set
(the scan refuses a cell only when `value is not None and not freed`). -/
def has_enough_space (m : Mem) (addr : Int) (size : Nat) : Bool :=
  if addr + size > STACK_LIMIT then false
  else (List.range size).all fun i =>
    decide ((m (addr + i)).value = .vnone) || (m (addr + i)).freed

/-- The scan loop of `MemoryModel.alloc_heap`: starting at `HEAP_BOTTOM`,
advance while `_has_enough_space` fails; raise (return `none`) as soon as
the candidate address reaches `STACK_LIMIT`.  The loop visits at most the
addresses `1..11`, so fuel `11` is exact. -/
def alloc_scan_go (m : Mem) (size : Nat) : Nat → Int → Option Int
  | 0, _ => none
  | fuel + 1, addr =>
    if has_enough_space m addr size then some addr
    else if addr + 1 ≥ STACK_LIMIT then none
    else alloc_scan_go m size fuel (addr + 1)

/-- Address returned by `MemoryModel.alloc_heap`, or `none` on
`MemoryError("Heap Overflow")`. -/
def alloc_scan (m : Mem) (size : Nat) : Option Int :=
  alloc_scan_go m size 11 HEAP_BOTTOM

/-- The cell written by `alloc_heap` into each address of the reserved run:
`MemCell(value=None, label=label, typ=typ, frame_idx=-1)`. -/
def freshHeapCell (label : Option String) (typ : String) : MemCell :=
  { value := .vnone, label := label, typ := typ, freed := false,
    is_pointer := false, frame_idx := -1 }

/-- The write loop of `alloc_heap`: every cell in `[a, a + size)` is replaced
by a fresh heap cell. -/
def heap_init_run (m : Mem) (label : Option String) (typ : String) (a : Int) (size : Nat) : Mem :=
  fun x => if a ≤ x ∧ x < a + size then freshHeapCell label typ else m x

/-- `MemoryModel.alloc_heap(label, typ, size)`: first-fit scan from
`HEAP_BOTTOM`, then initialize the reserved run. -/
def alloc_heap (m : Mem) (label : Option String) (typ : String) (size : Nat) : Option (Int × Mem) :=
  (alloc_scan m size).map fun a => (a, heap_init_run m label typ a size)

theorem has_enough_space_iff (m : Mem) (addr : Int) (size : Nat) :
    has_enough_space m addr size = true ↔
      (addr + size ≤ STACK_LIMIT ∧
        ∀ i : Nat, i < size → ((m (addr + i)).value = .vnone ∨ (m (addr + i)).freed = true)) := by
  unfold has_enough_space
  by_cases h : addr + size > STACK_LIMIT
  · simp [h]
  · rw [if_neg h, List.all_eq_true]
    constructor
    · intro hall
      refine ⟨by omega, fun i hi => ?_⟩
      have := hall i (List.mem_range.mpr hi)
      simp only [Bool.or_eq_true, decide_eq_true_eq] at this
      tauto
    · rintro ⟨_, hall⟩ i hi
      have := hall i (List.mem_range.mp hi)
      simp only [Bool.or_eq_true, decide_eq_true_eq]
      tauto

theorem alloc_scan_go_spec (m : Mem) (size : Nat) :
    ∀ (fuel : Nat) (addr a : Int), alloc_scan_go m size fuel addr = some a →
      addr ≤ a ∧ has_enough_space m a size = true := by
  intro fuel
  induction fuel with
  | zero => intro addr a h; simp [alloc_scan_go] at h
  | succ n ih =>
    intro addr a h
    unfold alloc_scan_go at h
    by_cases h1 : has_enough_space m addr size
    · simp [h1] at h; subst h; exact ⟨le_refl _, h1⟩
    · simp only [h1, if_false, Bool.false_eq_true] at h
      by_cases h2 : addr + 1 ≥ STACK_LIMIT
      · simp [h2] at h
      · simp only [h2, if_false] at h
        have := ih (addr + 1) a h
        exact ⟨by omega, this.2⟩

/-- What a successful heap allocation guarantees: the run lies inside the
heap region, every cell of it was free before the call, every cell of it is
freshly initialized after the call, and the rest of memory is untouched. -/
theorem alloc_heap_spec (m : Mem) (label : Option String) (typ : String) (size : Nat)
    (a : Int) (h : alloc_scan m size = some a) :
    HEAP_BOTTOM ≤ a ∧ a + size ≤ STACK_LIMIT ∧
      (∀ i : Nat, i < size → ((m (a + i)).value = .vnone ∨ (m (a + i)).freed = true)) ∧
      (∀ i : Nat, i < size → heap_init_run m label typ a size (a + i) = freshHeapCell label typ) ∧
      (∀ x : Int, (x < a ∨ a + size ≤ x) → heap_init_run m label typ a size x = m x) := by
  obtain ⟨h1, h2⟩ := alloc_scan_go_spec m size 11 HEAP_BOTTOM a h
  rw [has_enough_space_iff] at h2
  refine ⟨h1, h2.1, h2.2, ?_, ?_⟩
  · intro i hi
    unfold heap_init_run
    have : a ≤ a + i ∧ a + i < a + size := by omega
    simp [this]
  · intro x hx
    unfold heap_init_run
    have : ¬(a ≤ x ∧ x < a + size) := by omega
    simp [this]

/-- One iteration of the element-relocation loop in
`MethodCall._execute_push`: copy the value (and a generic heap label) to the
new buffer, then mark the old cell freed with the `"FREED"` sentinel. -/
def move_step (ptr new_ptr : Int) (i : Nat) (m : Mem) : Mem :=
  let v := (m (ptr + i)).value
  let m1 := setValue m (new_ptr + i) v
  let m2 := setLabel m1 (new_ptr + i) (some ("heap[" ++ toString (new_ptr + (i : Int)) ++ "]"))
  let m3 := setFreed m2 (ptr + i) true
  setValue m3 (ptr + i) (.vstr "FREED")

/-- The relocation loop `for i in range(length)` of `_execute_push`,
iterations `0, 1, ..., n-1` in order. -/
def move_elems (ptr new_ptr : Int) : Nat → Mem → Mem
  | 0, m => m
  | n + 1, m => move_step ptr new_ptr n (move_elems ptr new_ptr n m)

/-- `MethodCall._execute_push(mem, base_addr)` with the pushed value `val`
already evaluated (the `arg_0` scratch entry).  The Vec metadata live at
`base_addr + 2` (`ptr`), `base_addr + 1` (`len`), `base_addr + 0` (`cap`);
non-integer metadata raise (`none`).  On `length >= cap` the buffer is
reallocated at double capacity (4 when `cap == 0`), elements are moved and
the old cells freed, and the `ptr`/`cap` words are rewritten; in all cases
the value is written at `ptr + length` and the `len` word incremented. -/
def execute_push (m : Mem) (base_addr : Int) (val : Val) : Option Mem :=
  match (m (base_addr + 2)).value, (m (base_addr + 1)).value, (m (base_addr + 0)).value with
  | .vint ptr, .vint length, .vint cap =>
    if cap ≤ length then
      -- the source binds `new_cap = cap * 2 if cap > 0 else 4`; it is inlined here
      match alloc_heap m none "i32" (if 0 < cap then cap * 2 else 4).toNat with
      | none => none
      | some (new_ptr, m1) =>
        some (setValue (setValue (setValue (setValue
          (move_elems ptr new_ptr length.toNat m1)
          (base_addr + 2) (.vint new_ptr))
          (base_addr + 0) (.vint (if 0 < cap then cap * 2 else 4)))
          (new_ptr + length) val)
          (base_addr + 1) (.vint (length + 1)))
    else
      some (setValue (setValue m (ptr + length) val) (base_addr + 1) (.vint (length + 1)))
  | _, _, _ => none

theorem move_step_frame (ptr new_ptr : Int) (i : Nat) (m : Mem) (x : Int)
    (h1 : x ≠ new_ptr + i) (h2 : x ≠ ptr + i) :
    move_step ptr new_ptr i m x = m x := by
  unfold move_step
  rw [setValue_other _ _ _ _ h2, setFreed_other _ _ _ _ h2,
    setLabel_other _ _ _ _ h1, setValue_other _ _ _ _ h1]

theorem move_step_new (ptr new_ptr : Int) (i : Nat) (m : Mem)
    (h : new_ptr + (i : Int) ≠ ptr + i) :
    (move_step ptr new_ptr i m (new_ptr + i)).value = (m (ptr + i)).value := by
  unfold move_step
  rw [setValue_other _ _ _ _ h, setFreed_other _ _ _ _ h, setLabel_value, setValue_same]

theorem move_step_old_value (ptr new_ptr : Int) (i : Nat) (m : Mem) :
    (move_step ptr new_ptr i m (ptr + i)).value = .vstr "FREED" := by
  unfold move_step
  rw [setValue_same]

theorem move_step_old_freed (ptr new_ptr : Int) (i : Nat) (m : Mem) :
    (move_step ptr new_ptr i m (ptr + i)).freed = true := by
  unfold move_step
  rw [setValue_freed, setFreed_same]

/-- Behaviour of the whole relocation loop when the source and target runs
are disjoint: untouched addresses keep their cells, each target cell receives
the source value, and each source cell is marked freed with the sentinel. -/
theorem move_elems_spec (ptr new_ptr : Int) (n : Nat) (m : Mem)
    (hdisj : ∀ i j : Nat, i < n → j < n → (new_ptr + i : Int) ≠ ptr + j) :
    (∀ x : Int, (∀ i : Nat, i < n → x ≠ new_ptr + i ∧ x ≠ ptr + i) →
        move_elems ptr new_ptr n m x = m x) ∧
    (∀ i : Nat, i < n →
        (move_elems ptr new_ptr n m (new_ptr + i)).value = (m (ptr + i)).value ∧
        (move_elems ptr new_ptr n m (ptr + i)).value = .vstr "FREED" ∧
        (move_elems ptr new_ptr n m (ptr + i)).freed = true) := by
  induction n with
  | zero =>
    refine ⟨fun x _ => rfl, fun i hi => absurd hi (by omega)⟩
  | succ n ih =>
    have hd' : ∀ i j : Nat, i < n → j < n → (new_ptr + i : Int) ≠ ptr + j :=
      fun i j hi hj => hdisj i j (by omega) (by omega)
    obtain ⟨ihframe, ihvals⟩ := ih hd'
    have hptr_ne : ∀ i j : Nat, i ≠ j → (ptr + (i : Int)) ≠ ptr + j := by
      intro i j hij hc
      apply hij
      omega
    have hnew_ne : ∀ i j : Nat, i ≠ j → (new_ptr + (i : Int)) ≠ new_ptr + j := by
      intro i j hij hc
      apply hij
      omega
    constructor
    · intro x hx
      show move_step ptr new_ptr n (move_elems ptr new_ptr n m) x = m x
      rw [move_step_frame _ _ _ _ _ (hx n (by omega)).1 (hx n (by omega)).2]
      exact ihframe x fun i hi => hx i (by omega)
    · intro i hi
      simp only [move_elems]
      by_cases hin : i = n
      · subst hin
        refine ⟨?_, ?_, ?_⟩
        · rw [move_step_new _ _ _ _ (hdisj i i hi hi)]
          exact congrArg MemCell.value
            (ihframe (ptr + i) fun j hj =>
              ⟨fun hc => hdisj j i (by omega) hi hc.symm, hptr_ne i j (by omega)⟩)
        · exact move_step_old_value _ _ _ _
        · exact move_step_old_freed _ _ _ _
      · have hilt : i < n := by omega
        obtain ⟨hv, hov, hof⟩ := ihvals i hilt
        refine ⟨?_, ?_, ?_⟩
        · rw [move_step_frame _ _ _ _ _ (hnew_ne i n hin) (fun hc => hdisj i n (by omega) (by omega) hc), hv]
        · rw [move_step_frame _ _ _ _ _ (fun hc => hdisj n i (by omega) (by omega) hc.symm) (hptr_ne i n hin), hov]
        · rw [move_step_frame _ _ _ _ _ (fun hc => hdisj n i (by omega) (by omega) hc.symm) (hptr_ne i n hin), hof]

theorem STACK_LIMIT_val : STACK_LIMIT = 12 := rfl

theorem MEM_SIZE_val : MEM_SIZE = 26 := rfl

theorem HEAP_BOTTOM_val : HEAP_BOTTOM = 1 := rfl

/-- C4: behaviour of `MethodCall._execute_push` on a well-formed Vec whose
metadata words are the integers `ptr = p`, `len = l`, `cap = c` and whose
buffer cells are live (non-`None`, not freed) inside the heap region, while
the metadata live in the stack region.  First conjunct (`l = c`, so also the
`cap = 0` first push): if the first-fit scan for the doubled capacity
(`4` when `cap = 0`) finds an address `a`, the push reallocates there,
copies all `len` elements in order, marks every old buffer cell freed with
the `"FREED"` sentinel, rewrites the `ptr` and `cap` metadata words, writes
the pushed value at `ptr + len` (the new `ptr`), and increments `len`.
Second conjunct (`l < c`): no reallocation, the value is written at
`ptr + len` and `len` is incremented. -/
theorem push_spec (m : Mem) (base p l c : Int) (val : Val)
    (hpm : (m (base + 2)).value = .vint p)
    (hlm : (m (base + 1)).value = .vint l)
    (hcm : (m base).value = .vint c)
    (hbase : 12 ≤ base) :
    (∀ a : Int, l = c → 0 ≤ c → 0 ≤ p → p + c ≤ 12 →
      (∀ i : Nat, i < c.toNat → (m (p + i)).value ≠ .vnone ∧ (m (p + i)).freed = false) →
      alloc_scan m (if 0 < c then c * 2 else 4).toNat = some a →
      ∃ m', execute_push m base val = some m' ∧
        (m' (base + 2)).value = .vint a ∧
        (m' base).value = .vint (if 0 < c then c * 2 else 4) ∧
        (m' (base + 1)).value = .vint (c + 1) ∧
        (∀ i : Nat, i < c.toNat →
          (m' (a + i)).value = (m (p + i)).value ∧
          (m' (p + i)).freed = true ∧ (m' (p + i)).value = .vstr "FREED") ∧
        (m' (a + c)).value = val) ∧
    (l < c → 0 ≤ p + l → p + l < 12 →
      ∃ m', execute_push m base val = some m' ∧
        (m' (p + l)).value = val ∧ (m' (base + 1)).value = .vint (l + 1)) := by
  constructor
  · rintro a rfl hc hp hpc hlive halloc
    set F : Int := if 0 < l then l * 2 else 4 with hF
    have hFpos : 0 < F := by rw [hF]; split <;> omega
    have hlF : l < F := by rw [hF]; split <;> omega
    have hFtoNat : (F.toNat : Int) = F := Int.toNat_of_nonneg (le_of_lt hFpos)
    obtain ⟨ha1, ha2, hfree, hfresh, hframe⟩ := alloc_heap_spec m none "i32" F.toNat a halloc
    rw [STACK_LIMIT_val] at ha2
    rw [HEAP_BOTTOM_val] at ha1
    -- live buffer cells lie outside the freshly reserved run
    have hold : ∀ i : Nat, i < l.toNat → (p + (i : Int) < a ∨ a + (F.toNat : Int) ≤ p + i) := by
      intro i hi
      by_contra hcon
      push_neg at hcon
      have hk := hfree (p + i - a).toNat (by omega)
      rw [show a + (((p + i - a).toNat : Nat) : Int) = p + i by omega] at hk
      obtain ⟨hv, hf⟩ := hlive i hi
      rcases hk with hk | hk
      · exact hv hk
      · rw [hf] at hk; cases hk
    -- the old and new runs are disjoint
    have hdisj : ∀ i j : Nat, i < l.toNat → j < l.toNat → (a + i : Int) ≠ p + j := by
      intro i j hi hj heq
      have hfi := hfree i (by omega)
      obtain ⟨hv, hf⟩ := hlive j hj
      rw [heq] at hfi
      rcases hfi with hk | hk
      · exact hv hk
      · rw [hf] at hk; cases hk
    obtain ⟨mframe, mvals⟩ :=
      move_elems_spec p a l.toNat (heap_init_run m none "i32" a F.toNat) hdisj
    -- buffer cells read by the relocation loop still hold their original values
    have hm1old : ∀ i : Nat, i < l.toNat →
        heap_init_run m none "i32" a F.toNat (p + i) = m (p + i) := by
      intro i hi
      exact hframe (p + i) (hold i hi)
    -- evaluate `execute_push`
    have hstep : execute_push m base val =
        some (setValue (setValue (setValue (setValue
          (move_elems p a l.toNat (heap_init_run m none "i32" a F.toNat))
          (base + 2) (.vint a)) base (.vint F)) (a + l) val)
          (base + 1) (.vint (l + 1))) := by
      unfold execute_push
      simp only [add_zero, hpm, hlm, hcm, le_refl, if_true, ← hF]
      unfold alloc_heap
      rw [halloc]
      simp only [Option.map_some']
    refine ⟨_, hstep, ?_, ?_, ?_, ?_, ?_⟩
    · rw [setValue_other _ _ _ _ (by omega), setValue_other _ _ _ _ (by omega),
        setValue_other _ _ _ _ (by omega), setValue_same]
    · rw [setValue_other _ _ _ _ (by omega), setValue_other _ _ _ _ (by omega),
        setValue_same]
    · rw [setValue_same]
    · intro i hi
      have hiI : (i : Int) < l := by omega
      have hai : a + (i : Int) < 12 := by omega
      refine ⟨?_, ?_, ?_⟩
      · rw [setValue_other _ _ _ _ (by omega), setValue_other _ _ _ _ (by omega),
          setValue_other _ _ _ _ (by omega), setValue_other _ _ _ _ (by omega)]
        rw [(mvals i hi).1, hm1old i hi]
      · rw [setValue_freed, setValue_freed, setValue_freed, setValue_freed]
        exact (mvals i hi).2.2
      · have hpa : p + (i : Int) ≠ a + l := by
          rcases hold i hi with h | h <;> omega
        rw [setValue_other _ _ _ _ (by omega), setValue_other _ _ _ _ hpa,
          setValue_other _ _ _ _ (by omega), setValue_other _ _ _ _ (by omega)]
        exact (mvals i hi).2.1
    · rw [setValue_other _ _ _ _ (by omega), setValue_same]
  · intro hlt hpl1 hpl2
    have hstep : execute_push m base val =
        some (setValue (setValue m (p + l) val) (base + 1) (.vint (l + 1))) := by
      unfold execute_push
      simp only [add_zero, hpm, hlm, hcm, if_neg (not_le.mpr hlt)]
    refine ⟨_, hstep, ?_, ?_⟩
    · rw [setValue_other _ _ _ _ (by omega), setValue_same]
    · rw [setValue_same]

/-- Concrete memory for exercising `push_spec`: a Vec with metadata at stack
addresses `23` (`cap = 1`), `24` (`len = 1`), `25` (`ptr = 1`) and one live
element `5` in heap cell `1`. -/
def pushWitnessMem : Mem := fun x =>
  if x = 23 then { value := .vint 1, label := some "v.cap", typ := "usize" }
  else if x = 24 then { value := .vint 1, label := some "v.len", typ := "usize" }
  else if x = 25 then { value := .vint 1, label := some "v.ptr", typ := "ptr", is_pointer := true }
  else if x = 1 then { value := .vint 5, label := some "v[0]", typ := "i32" }
  else defaultCell

theorem push_spec_witness :
    ∃ m', execute_push pushWitnessMem 23 (.vint 7) = some m' ∧
      (m' (23 + 2)).value = .vint 2 ∧
      (m' 23).value = .vint (if (0 : Int) < 1 then 1 * 2 else 4) ∧
      (m' (23 + 1)).value = .vint (1 + 1) ∧
      (∀ i : Nat, i < (1 : Int).toNat →
        (m' (2 + i)).value = (pushWitnessMem (1 + i)).value ∧
        (m' (1 + i)).freed = true ∧ (m' (1 + i)).value = .vstr "FREED") ∧
      (m' (2 + 1)).value = .vint 7 :=
  (push_spec pushWitnessMem 23 1 1 1 (.vint 7) (by decide) (by decide) (by decide)
    (by decide)).1 2 rfl (by decide) (by decide) (by decide) (by decide) (by decide)

/-- The marking performed when a heap run is freed (the loop in
`Drop.execute` for a Vec buffer, also the per-cell clean-up in
`_execute_push`): each cell in `[a, a + n)` gets `freed = True`,
`value = "FREED"`, `label = None`.  (`Drop` additionally guards each address
with `0 <= addr < len(mem)`; the claims only free runs inside the heap
region, where the guard always passes.) -/
def free_run (m : Mem) (a : Int) (n : Nat) : Mem :=
  fun x => if a ≤ x ∧ x < a + n then { m x with freed := true, value := .vstr "FREED", label := none } else m x

theorem alloc_scan_at_bottom (m : Mem) (S : Nat) (h : has_enough_space m HEAP_BOTTOM S = true) :
    alloc_scan m S = some HEAP_BOTTOM := by
  have h0 : alloc_scan m S = alloc_scan_go m S (10 + 1) HEAP_BOTTOM := rfl
  rw [h0]
  unfold alloc_scan_go
  rw [if_pos h]

/-- C5: heap first-fit idempotence.  Allocating a run of size `S ≤ 11`
(the heap region is `[HEAP_BOTTOM, STACK_LIMIT) = [1, 12)`) into an empty
heap returns `HEAP_BOTTOM`; and for any memory `m2` whose heap cells outside
the run `[1, 1 + S)` are still empty (the program may have written into the
run itself), freeing that run and allocating the same size again returns the
same address `HEAP_BOTTOM`. -/
theorem heap_first_fit_idempotence (m m2 : Mem) (S : Nat) (hS : S ≤ 11)
    (hempty : ∀ i : Nat, i < 11 → (m (1 + i)).value = .vnone)
    (hout : ∀ i : Nat, i < 11 → S ≤ i → (m2 (1 + i)).value = .vnone) :
    alloc_scan m S = some HEAP_BOTTOM ∧
    alloc_scan (free_run m2 HEAP_BOTTOM S) S = some HEAP_BOTTOM := by
  constructor
  · apply alloc_scan_at_bottom
    rw [has_enough_space_iff, HEAP_BOTTOM_val, STACK_LIMIT_val]
    exact ⟨by omega, fun i hi => Or.inl (hempty i (by omega))⟩
  · apply alloc_scan_at_bottom
    rw [has_enough_space_iff, HEAP_BOTTOM_val, STACK_LIMIT_val]
    refine ⟨by omega, fun i hi => Or.inr ?_⟩
    unfold free_run
    have : (1 : Int) ≤ 1 + i ∧ 1 + (i : Int) < 1 + S := by omega
    simp [this]

theorem heap_first_fit_idempotence_witness :
    alloc_scan (fun _ => defaultCell) 1 = some HEAP_BOTTOM ∧
    alloc_scan
      (free_run (fun x => if x = 1 then { defaultCell with value := .vint 42, typ := "i32" } else defaultCell)
        HEAP_BOTTOM 1) 1 = some HEAP_BOTTOM :=
  heap_first_fit_idempotence (fun _ => defaultCell)
    (fun x => if x = 1 then { defaultCell with value := .vint 42, typ := "i32" } else defaultCell)
    1 (by decide) (by decide) (by decide)

/-- C9: the allocator's free criterion is `freed`-flag-or-`None`-value, a
newly reserved run is initialized with `value = None` (hence immediately
"free" again), and consequently two successive allocations with no
intervening write can overlap: on an empty memory, allocating a run of size
2 returns address 1, and allocating size 2 again right afterwards returns
the very same address 1. -/
theorem heap_free_criterion_and_overlap :
    (∀ (m : Mem) (addr : Int) (S : Nat),
      has_enough_space m addr S = true ↔
        (addr + S ≤ STACK_LIMIT ∧
          ∀ i : Nat, i < S → ((m (addr + i)).value = .vnone ∨ (m (addr + i)).freed = true))) ∧
    (∀ (m : Mem) (lbl : Option String) (t : String) (S : Nat) (a : Int),
      alloc_scan m S = some a →
      ∀ i : Nat, i < S → ((heap_init_run m lbl t a S) (a + i)).value = .vnone) ∧
    (alloc_scan (fun _ => defaultCell) 2 = some 1 ∧
      alloc_scan (heap_init_run (fun _ => defaultCell) none "i32" 1 2) 2 = some 1) := by
  refine ⟨has_enough_space_iff, ?_, by decide, by decide⟩
  intro m lbl t S a h i hi
  obtain ⟨_, _, _, hfresh, _⟩ := alloc_heap_spec m lbl t S a h
  rw [hfresh i hi]
  rfl

theorem heap_free_criterion_and_overlap_witness :
    (has_enough_space (fun _ => defaultCell) 1 2 = true ↔
      ((1 : Int) + (2 : Nat) ≤ STACK_LIMIT ∧
        ∀ i : Nat, i < 2 →
          (((fun _ => defaultCell : Mem) ((1 : Int) + i)).value = .vnone ∨
            ((fun _ => defaultCell : Mem) ((1 : Int) + i)).freed = true))) ∧
    ((heap_init_run (fun _ => defaultCell) none "i32" 1 2 (1 + (0 : Nat))).value = .vnone) :=
  ⟨heap_free_criterion_and_overlap.1 (fun _ => defaultCell) 1 2,
   heap_free_criterion_and_overlap.2.1 (fun _ => defaultCell) none "i32" 2 1 (by decide) 0 (by decide)⟩

/-- `EvaluationResult` from `core/base.py`: an ordered list of values, a
type tag and a pointer flag. -/
structure EvalResult where
  values : List Val
  typ : String := "i32"
  is_pointer : Bool := false
  deriving DecidableEq, Repr

/-- `EvaluationResult.get_scalar`: asserts a single value. -/
def getScalar (r : EvalResult) : Option Val :=
  match r.values with
  | [v] => some v
  | _ => none

/-- Values stored in an Execution Context's scratch map
(`ExecutionContext.temp_results`): evaluation results, the `ready_to_call`
flag, and the collected `arg_values` lists. -/
inductive SVal where
  | res : EvalResult → SVal
  | flag : Bool → SVal
  | argv : List (List Val) → SVal
  deriving DecidableEq, Repr

/-- `ExecutionContext`: a step counter plus a scratch map.  The Python dict
is modelled as an association list where the most recent binding of a key
shadows older ones (`ctxGet` finds the newest), which matches dict
overwrite semantics observationally. -/
structure Ctx where
  step : Nat := 0
  scratch : List (String × SVal) := []
  deriving DecidableEq, Repr

/-- `ExecutionContext.store`. -/
def ctxStore (c : Ctx) (k : String) (v : SVal) : Ctx :=
  { c with scratch := (k, v) :: c.scratch }

/-- `ExecutionContext.get` (with `None` default). -/
def ctxGet (c : Ctx) (k : String) : Option SVal :=
  (c.scratch.find? fun kv => kv.1 = k).map Prod.snd

/-- `ExecutionContext.advance`. -/
def ctxAdvance (c : Ctx) : Ctx :=
  { c with step := c.step + 1 }

/-- AST node identity.  The Python code keys per-node Execution Contexts by
`id(self)`; here every AST node is identified by its path in the program
tree (children extend their parent's path), which is injective across
distinct nodes. -/
def NodePath := List Nat
  deriving DecidableEq, Repr

/-- The `StackFrame` dataclass from `architecture.py`.  `contexts` is the
frame-scoped per-node Execution Context map (keyed by node identity, see
`NodePath`); like `vars_map` it is an association list whose newest entry
wins. -/
structure StackFrame where
  name : String
  base_addr : Int
  size : Nat
  vars_map : List (String × Int) := []
  slots_allocated : Nat := 0
  contexts : List (NodePath × Ctx) := []
  ret_dest : Option String := none
  ret_type : Option String := none
  ret_size : Option Nat := none
  ret_alloc_new : Bool := false
  deriving Repr

/-- The `MemoryModel` state: flat memory, call stack, stack pointer.
The Python call stack is a list with the innermost frame LAST; here the
innermost frame is the HEAD of the list (so `reversed(call_stack)` scans in
the source correspond to plain head-first scans). -/
structure MState where
  mem : Mem
  call_stack : List StackFrame
  sp : Int

/-- `MemoryModel.__init__`: empty cells, no frames, `_sp = STACK_TOP + 1`. -/
def initMState : MState :=
  { mem := fun _ => defaultCell, call_stack := [], sp := STACK_TOP + 1 }

/-- `MemoryModel.push_frame(name, size, ...)`: raises `StackOverflow`
(`none`) when the new stack pointer would cross `STACK_LIMIT`; otherwise
records the frame and resets every cell of `[new_sp, new_sp + size)` to a
default cell tagged with the new frame index. -/
def push_frame (s : MState) (name : String) (size : Nat)
    (ret_dest : Option String) (ret_alloc_new : Bool) : Option MState :=
  let new_sp := s.sp - size
  if new_sp < STACK_LIMIT then none
  else
    let idx : Int := s.call_stack.length
    let frame : StackFrame :=
      { name := name, base_addr := new_sp, size := size,
        ret_dest := ret_dest, ret_alloc_new := ret_alloc_new }
    some { mem := fun x => if new_sp ≤ x ∧ x < new_sp + size then { defaultCell with frame_idx := idx } else s.mem x,
           call_stack := frame :: s.call_stack,
           sp := new_sp }

/-- `MemoryModel.pop_frame()`: no-op on an empty call stack; otherwise
removes the top frame, resets every cell of its reserved range to the
default cell, and restores the stack pointer. -/
def pop_frame (s : MState) : MState :=
  match s.call_stack with
  | [] => s
  | f :: rest =>
    { mem := fun x => if f.base_addr ≤ x ∧ x < f.base_addr + f.size then defaultCell else s.mem x,
      call_stack := rest,
      sp := s.sp + f.size }

/-- A sequence of nested `push_frame` calls (each `(name, size)` in order). -/
def pushN (s : MState) : List (String × Nat) → Option MState
  | [] => some s
  | (n, sz) :: rest => (push_frame s n sz none false).bind fun s' => pushN s' rest

/-- `n` successive `pop_frame` calls. -/
def popN : Nat → MState → MState
  | 0, s => s
  | n + 1, s => popN n (pop_frame s)

theorem pushN_length (l : List (String × Nat)) : ∀ (s s' : MState), pushN s l = some s' →
    s'.call_stack.length = s.call_stack.length + l.length := by
  induction l with
  | nil => intro s s' h; cases h; simp
  | cons hd tl ih =>
    intro s s' h
    unfold pushN at h
    unfold push_frame at h
    by_cases hc : s.sp - hd.2 < STACK_LIMIT
    · rw [if_pos hc] at h; cases h
    · rw [if_neg hc] at h
      simp only [Option.some_bind] at h
      have := ih _ _ h
      simp only [List.length_cons] at this ⊢
      omega

theorem popN_length : ∀ (n : Nat) (s : MState), n ≤ s.call_stack.length →
    (popN n s).call_stack.length = s.call_stack.length - n := by
  intro n
  induction n with
  | zero => intro s _; simp [popN]
  | succ k ih =>
    intro s hn
    unfold popN
    match hcs : s.call_stack with
    | [] => rw [hcs] at hn; simp at hn
    | f :: rest =>
      have hpop : (pop_frame s).call_stack = rest := by unfold pop_frame; rw [hcs]
      have := ih (pop_frame s) (by rw [hpop]; rw [hcs] at hn; simp at hn; omega)
      rw [this, hpop]
      simp

/-- C6: the call stack is LIFO and frame teardown is complete.  First
conjunct: any sequence of `N` nested calls followed by `N` returns leaves
the call-stack depth unchanged.  Second conjunct: popping a frame resets
every cell of its reserved range `[base_addr, base_addr + size)` to the
default cell and moves the stack pointer back up by the frame size.  Third
conjunct: `pop_frame` on an empty call stack is a no-op. -/
theorem stack_lifo_and_teardown :
    (∀ (s s' : MState) (l : List (String × Nat)), pushN s l = some s' →
      (popN l.length s').call_stack.length = s.call_stack.length) ∧
    (∀ (s : MState) (f : StackFrame) (rest : List StackFrame), s.call_stack = f :: rest →
      (∀ x : Int, f.base_addr ≤ x → x < f.base_addr + f.size → (pop_frame s).mem x = defaultCell) ∧
      (pop_frame s).sp = s.sp + f.size ∧ (pop_frame s).call_stack = rest) ∧
    (∀ s : MState, s.call_stack = [] → pop_frame s = s) := by
  refine ⟨?_, ?_, ?_⟩
  · intro s s' l h
    have h1 := pushN_length l s s' h
    have h2 := popN_length l.length s' (by omega)
    omega
  · intro s f rest hcs
    unfold pop_frame
    rw [hcs]
    refine ⟨?_, rfl, rfl⟩
    intro x h1 h2
    simp only []
    rw [if_pos ⟨h1, h2⟩]
  · intro s hcs
    unfold pop_frame
    rw [hcs]

/-- Write the `is_pointer` field of the cell at address `x`. -/
def setPtrFlag (m : Mem) (x : Int) (b : Bool) : Mem :=
  fun y => if y = x then { m y with is_pointer := b } else m y

/-- Frame part of `MemoryModel.get_addr`: scan frames from innermost to
outermost for the label (the innermost frame is the list head here). -/
def lookup_frames : List StackFrame → String → Option Int
  | [], _ => none
  | f :: rest, label =>
    match f.vars_map.lookup label with
    | some a => some a
    | none => lookup_frames rest label

/-- Heap part of `MemoryModel.get_addr`: first cell (in address order) whose
label matches and whose `frame_idx` is `-1`. -/
def scan_labels (m : Mem) (label : String) : Option Int :=
  ((List.range 26).find? fun a =>
    decide ((m (a : Int)).label = some label) && decide ((m (a : Int)).frame_idx = -1)).map
    fun a => (a : Int)

/-- `MemoryModel.get_addr(label)`: frames innermost-first, then top-level
heap labels; `none` models the raised `KeyError`. -/
def get_addr (s : MState) (label : String) : Option Int :=
  match lookup_frames s.call_stack label with
  | some a => some a
  | none => scan_labels s.mem label

/-- `Drop.execute` for a non-Vec pointer variable (`is_vec=False`): resolve
the variable's address, and when its value is an integer, mark the pointed-to
cell freed (`freed = True`, `label = None`, `value = "FREED"`); in every case
null out the pointer slot (`value = "null"`, `is_pointer = False`) and
complete.  There is no check that the target cell is live: a second drop on
an already-freed cell proceeds.  Python list indexing wraps a negative
in-range index (`mem[h]` is `mem[MEM_SIZE + h]` for `-MEM_SIZE <= h < 0`)
and raises `IndexError` (`none`) outside `[-MEM_SIZE, MEM_SIZE)`. -/
def drop_mark (m : Mem) (ha : Val) : Option Mem :=
  match ha with
  | .vint h =>
    if 0 ≤ h ∧ h < MEM_SIZE then
      some (setValue (setLabel (setFreed m h true) h none) h (.vstr "FREED"))
    else if h < 0 ∧ 0 ≤ h + MEM_SIZE then
      some (setValue (setLabel (setFreed m (h + MEM_SIZE) true) (h + MEM_SIZE) none)
        (h + MEM_SIZE) (.vstr "FREED"))
    else none
  | _ => some m

def drop_scalar (s : MState) (name : String) : Option MState :=
  (get_addr s name).bind fun pa =>
    (drop_mark s.mem (s.mem pa).value).bind fun m1 =>
      some { s with mem := setPtrFlag (setValue m1 pa (.vstr "null")) pa false }

/-- C7: `Drop` does not guard against double-free.  Whenever the dropped
name resolves to an address whose value is either a non-integer (such as the
`"null"` sentinel left by an earlier drop, or the `"FREED"` sentinel) or an
in-range integer — in particular when the pointee cell is already marked
freed — the drop completes without raising. -/
theorem drop_no_double_free_guard (s : MState) (name : String) (pa : Int)
    (haddr : get_addr s name = some pa)
    (hval : ∀ h : Int, (s.mem pa).value = .vint h → -MEM_SIZE ≤ h ∧ h < MEM_SIZE) :
    ∃ s', drop_scalar s name = some s' := by
  unfold drop_scalar
  rw [haddr]
  simp only [Option.some_bind]
  cases hv : (s.mem pa).value with
  | vint h =>
    have hb := hval h hv
    simp only [drop_mark]
    by_cases h0 : 0 ≤ h ∧ h < MEM_SIZE
    · rw [if_pos h0]
      exact ⟨_, rfl⟩
    · have h1 : h < 0 ∧ 0 ≤ h + MEM_SIZE := by
        rw [MEM_SIZE_val] at hb h0 ⊢
        omega
      rw [if_neg h0, if_pos h1]
      exact ⟨_, rfl⟩
  | vnone => exact ⟨_, rfl⟩
  | vstr t => exact ⟨_, rfl⟩

/-- Double-free scenario `let p1 = Box::new(42); let p2 = p1; drop(p2);`:
one `main` frame with pointer slots `p1` (address 25) and `p2` (address 24)
both holding heap address 1, whose cell holds `42`. -/
def dropScenario0 : MState :=
  { mem := fun x =>
      if x = 1 then { value := .vint 42, label := some "data", typ := "i32" }
      else if x = 24 then { value := .vint 1, label := some "p2", typ := "Box<i32>", is_pointer := true, frame_idx := 0 }
      else if x = 25 then { value := .vint 1, label := some "p1", typ := "Box<i32>", is_pointer := true, frame_idx := 0 }
      else defaultCell,
    call_stack := [{ name := "main", base_addr := 23, size := 3,
                     vars_map := [("p2", 24), ("p1", 25)], slots_allocated := 2 }],
    sp := 23 }

/-- State after the first `drop(p2)`: heap cell 1 is `"FREED"`. -/
def dropScenario1 : MState := (drop_scalar dropScenario0 "p2").getD dropScenario0

theorem drop_no_double_free_guard_witness :
    drop_scalar dropScenario0 "p2" = some dropScenario1 ∧
    (dropScenario1.mem 1).freed = true ∧
    (dropScenario1.mem 1).value = .vstr "FREED" ∧
    (∃ s', drop_scalar dropScenario1 "p1" = some s') :=
  ⟨rfl, by decide, by decide,
    drop_no_double_free_guard dropScenario1 "p1" 25 (by decide)
      (by
        intro h hh
        have h1 : (dropScenario1.mem 25).value = Val.vint 1 := by decide
        rw [h1] at hh
        cases hh
        decide)⟩

/-- `MemoryModel.alloc_stack_var(label, typ, value, is_pointer)` with the
default `span=1` (the only form the Vec metadata code uses): the next slot
is taken from the top of the current frame's free region, the cell is fully
rewritten, the label is registered in the frame's `vars_map` and
`slots_allocated` is incremented.  Raises (`none`) when no frame exists
(the source indexes `call_stack[-1]`).  There is no bounds check: the
computed address may fall below the frame's base. -/
def alloc_stack_var (s : MState) (label : String) (typ : String) (value : Val) (is_ptr : Bool) :
    Option (Int × MState) :=
  match s.call_stack with
  | [] => none
  | f :: rest =>
    let addr : Int := f.base_addr + f.size - 1 - f.slots_allocated
    let cell : MemCell :=
      { value := value, label := some label, typ := typ, freed := false,
        is_pointer := is_ptr, frame_idx := (s.call_stack.length : Int) - 1 }
    let f2 : StackFrame :=
      { f with vars_map := (label, addr) :: f.vars_map, slots_allocated := f.slots_allocated + 1 }
    some (addr,
      { mem := fun x => if x = addr then cell else s.mem x,
        call_stack := f2 :: rest,
        sp := s.sp })

/-- The `"Vec"` branch of `LetBinding.execute`: after unpacking
`cap_val, len_val, ptr_val = result.values`, allocate the three metadata
stack slots in the order `.ptr`, `.len`, `.cap`. -/
def letVecAlloc (s : MState) (name : String) (cap_val len_val ptr_val : Val) : Option MState :=
  (alloc_stack_var s (name ++ ".ptr") "ptr" ptr_val true).bind fun x1 =>
  (alloc_stack_var x1.2 (name ++ ".len") "usize" len_val false).bind fun x2 =>
  (alloc_stack_var x2.2 (name ++ ".cap") "usize" cap_val false).map fun x3 => x3.2

/-- The `"Vec"` branch of `LetBinding.execute` expects exactly three values
(`cap_val, len_val, ptr_val = result.values`); anything else raises. -/
def letVecUnpack (values : List Val) : Option (Val × Val × Val) :=
  match values with
  | [cap_val, len_val, ptr_val] => some (cap_val, len_val, ptr_val)
  | _ => none

/-- The Vec branch of `Return.execute`: read the three metadata words at
offsets `+0`, `+1`, `+2` from the resolved base address (the source names
them `ptr`, `length`, `cap` in that order) and pack them as the portable
result values. -/
def returnPackVec (m : Mem) (base : Int) : List Val :=
  [(m (base + 0)).value, (m (base + 1)).value, (m (base + 2)).value]

/-- The Vec-typed-parameter branch of `FunctionCall.evaluate`: copy the
three metadata words `for offset in range(3)` starting at the base
address. -/
def vecArgMetadata (m : Mem) (base : Int) : List Val :=
  [(m (base + 0)).value, (m (base + 1)).value, (m (base + 2)).value]

/-- The metadata reads of `MethodCall._execute_push`: `ptr` at `base + 2`,
`len` at `base + 1`, `cap` at `base + 0`. -/
def pushReadMeta (m : Mem) (base : Int) : Val × Val × Val :=
  ((m (base + 2)).value, (m (base + 1)).value, (m (base + 0)).value)

/-- The Vec-parameter binding loop of `ProgramRunner.step` (step 4, "Map
arguments"): the fields `.ptr`, `.len`, `.cap` are allocated in that order,
receiving `vals[2 - offset]`, i.e. `vals[2]`, `vals[1]`, `vals[0]`. -/
def bindVecParam (s : MState) (pname : String) (vals : List Val) : Option MState :=
  match vals with
  | [v0, v1, v2] =>
    (alloc_stack_var s (pname ++ ".ptr") "ptr" v2 true).bind fun x1 =>
    (alloc_stack_var x1.2 (pname ++ ".len") "usize" v1 false).bind fun x2 =>
    (alloc_stack_var x2.2 (pname ++ ".cap") "usize" v0 false).map fun x3 => x3.2
  | _ => none

theorem append_ne_of_ne (a : String) {s t : String} (h : s ≠ t) : a ++ s ≠ a ++ t := by
  intro hc
  apply h
  have hd := congrArg String.data hc
  rw [String.data_append, String.data_append] at hd
  exact String.ext (List.append_cancel_left hd)

/-- C10: Vec metadata layout agreement.  Allocating a Vec's metadata (the
`"Vec"` branch of `LetBinding.execute`, values unpacked as
`cap_val, len_val, ptr_val`) in a state whose top frame is `f` proceeds
`.ptr` first at the highest address `base + size - 1 - slots_allocated`,
then `.len`, then `.cap` at strictly decreasing addresses; the three slots
end up at consecutive ascending addresses `A, A + 1, A + 2` holding
`cap, len, ptr` where `A = base + size - 3 - slots_allocated`; resolving the
bare name via the `"<name>.cap"` fallback yields exactly `A`, the lowest of
the three; `_execute_push`'s reads (`ptr` at `A + 2`, `len` at `A + 1`,
`cap` at `A + 0`), `FunctionCall`'s argument copy of `A + 0 .. A + 2`, and
`Return`'s packing followed by `LetBinding`'s unpacking all agree with this
layout; and the runner's Vec-parameter binder produces exactly the same
allocation sequence as `LetBinding`'s Vec branch. -/
theorem vec_metadata_layout (s : MState) (f : StackFrame) (rest : List StackFrame)
    (name : String) (c l p : Val)
    (hcs : s.call_stack = f :: rest) :
    ∃ s', letVecAlloc s name c l p = some s' ∧
      (alloc_stack_var s (name ++ ".ptr") "ptr" p true).map Prod.fst
        = some (f.base_addr + (f.size : Int) - 1 - f.slots_allocated) ∧
      get_addr s' (name ++ ".cap") = some (f.base_addr + (f.size : Int) - 3 - f.slots_allocated) ∧
      get_addr s' (name ++ ".len") = some (f.base_addr + (f.size : Int) - 2 - f.slots_allocated) ∧
      get_addr s' (name ++ ".ptr") = some (f.base_addr + (f.size : Int) - 1 - f.slots_allocated) ∧
      (s'.mem (f.base_addr + (f.size : Int) - 3 - f.slots_allocated)).value = c ∧
      (s'.mem (f.base_addr + (f.size : Int) - 2 - f.slots_allocated)).value = l ∧
      (s'.mem (f.base_addr + (f.size : Int) - 1 - f.slots_allocated)).value = p ∧
      pushReadMeta s'.mem (f.base_addr + (f.size : Int) - 3 - f.slots_allocated) = (p, l, c) ∧
      vecArgMetadata s'.mem (f.base_addr + (f.size : Int) - 3 - f.slots_allocated) = [c, l, p] ∧
      letVecUnpack (returnPackVec s'.mem (f.base_addr + (f.size : Int) - 3 - f.slots_allocated))
        = some (c, l, p) ∧
      (∀ (t : MState) (q : String) (c2 l2 p2 : Val),
        bindVecParam t q [c2, l2, p2] = letVecAlloc t q c2 l2 p2) := by
  have h_lc : ((name ++ ".len" : String) == (name ++ ".cap")) = false :=
    beq_eq_false_iff_ne.mpr (append_ne_of_ne name (by decide))
  have h_pc : ((name ++ ".ptr" : String) == (name ++ ".cap")) = false :=
    beq_eq_false_iff_ne.mpr (append_ne_of_ne name (by decide))
  have h_pl : ((name ++ ".ptr" : String) == (name ++ ".len")) = false :=
    beq_eq_false_iff_ne.mpr (append_ne_of_ne name (by decide))
  unfold letVecAlloc alloc_stack_var
  rw [hcs]
  simp only [Option.some_bind, Option.map_some']
  refine ⟨_, rfl, ?_, ?_, ?_, ?_, ?_, ?_, ?_, ?_, ?_, ?_, ?_⟩
  · simp only [Option.map_some', Option.some.injEq]
  · unfold get_addr lookup_frames
    simp only [List.lookup, beq_self_eq_true, Option.some.injEq]
    omega
  · unfold get_addr lookup_frames
    simp only [List.lookup, h_lc, beq_self_eq_true, Option.some.injEq]
    omega
  · unfold get_addr lookup_frames
    simp only [List.lookup, h_pc, h_pl, beq_self_eq_true, Option.some.injEq]
  · dsimp only
    split_ifs with h1 h2 h3 <;> first | rfl | omega
  · dsimp only
    split_ifs with h1 h2 h3 <;> first | rfl | omega
  · dsimp only
    split_ifs with h1 h2 h3 <;> first | rfl | omega
  · simp only [pushReadMeta, Prod.mk.injEq]
    refine ⟨?_, ?_, ?_⟩ <;> (dsimp only; split_ifs with h1 h2 h3 <;> first | rfl | omega)
  · simp only [vecArgMetadata, List.cons.injEq, and_true]
    refine ⟨?_, ?_, ?_⟩ <;> (dsimp only; split_ifs with h1 h2 h3 <;> first | rfl | omega)
  · simp only [returnPackVec, letVecUnpack, Option.some.injEq, Prod.mk.injEq]
    refine ⟨?_, ?_, ?_⟩ <;> (dsimp only; split_ifs with h1 h2 h3 <;> first | rfl | omega)
  · intro t q c2 l2 p2
    rfl

/-- Two nested frames pushed onto the initial state. -/
def lifoWitnessS : MState := (pushN initMState [("f", 2), ("g", 3)]).getD initMState

theorem stack_lifo_and_teardown_witness :
    ((popN ([("f", 2), ("g", 3)] : List (String × Nat)).length lifoWitnessS).call_stack.length
        = initMState.call_stack.length) ∧
    ((∀ x : Int, (21 : Int) ≤ x → x < 21 + ((3 : Nat) : Int) →
        (pop_frame lifoWitnessS).mem x = defaultCell) ∧
      (pop_frame lifoWitnessS).sp = lifoWitnessS.sp + ((3 : Nat) : Int) ∧
      (pop_frame lifoWitnessS).call_stack = [⟨"f", 24, 2, [], 0, [], none, none, none, false⟩]) ∧
    (pop_frame initMState = initMState) :=
  ⟨stack_lifo_and_teardown.1 initMState lifoWitnessS [("f", 2), ("g", 3)] rfl,
   stack_lifo_and_teardown.2.1 lifoWitnessS ⟨"g", 21, 3, [], 0, [], none, none, none, false⟩
     [⟨"f", 24, 2, [], 0, [], none, none, none, false⟩] rfl,
   stack_lifo_and_teardown.2.2 initMState rfl⟩

/-- A `main` frame of size 5 pushed onto the initial state. -/
def vecLayoutWitnessS : MState := (push_frame initMState "main" 5 none false).getD initMState

theorem vec_metadata_layout_witness :
    ∃ s', letVecAlloc vecLayoutWitnessS "v" (.vint 1) (.vint 2) (.vint 3) = some s' ∧
      (alloc_stack_var vecLayoutWitnessS ("v" ++ ".ptr") "ptr" (.vint 3) true).map Prod.fst
        = some 25 ∧
      get_addr s' ("v" ++ ".cap") = some 23 ∧
      get_addr s' ("v" ++ ".len") = some 24 ∧
      get_addr s' ("v" ++ ".ptr") = some 25 ∧
      (s'.mem 23).value = .vint 1 ∧
      (s'.mem 24).value = .vint 2 ∧
      (s'.mem 25).value = .vint 3 ∧
      pushReadMeta s'.mem 23 = (.vint 3, .vint 2, .vint 1) ∧
      vecArgMetadata s'.mem 23 = [.vint 1, .vint 2, .vint 3] ∧
      letVecUnpack (returnPackVec s'.mem 23) = some (.vint 1, .vint 2, .vint 3) ∧
      (∀ (t : MState) (q : String) (c2 l2 p2 : Val),
        bindVecParam t q [c2, l2, p2] = letVecAlloc t q c2 l2 p2) :=
  vec_metadata_layout vecLayoutWitnessS
    ⟨"main", 21, 5, [], 0, [], none, none, none, false⟩ [] "v" (.vint 1) (.vint 2) (.vint 3) rfl

/-- Outcome of `evaluate`/`execute`: a completed `EvaluationResult` or
`ExecutionStatus.INCOMPLETE`. -/
inductive Outcome where
  | done : EvalResult → Outcome
  | incomplete : Outcome
  deriving DecidableEq, Repr

/-- The expression fragment exercised by the claims: `Literal` (integer),
`Variable`, `BinaryOp` and `FunctionCall`.  (The remaining variants —
`ArrayAccess`, `Dereference`, `Reference`, `ArrayLiteral`, `VecMacro`,
`BoxNew`, `MethodCall` — are not needed by any claim's program.) -/
inductive Expr where
  | lit : Int → Expr
  | var : String → Expr
  | binop : Expr → String → Expr → Expr
  | call : String → List Expr → Expr

/-- The instruction fragment exercised by the claims: `LetBinding`,
`CompoundAssignment` (with a `VariableLValue` target, the only lvalue shape
the claims need), `Return` and `WhileLoop`. -/
inductive Instr where
  | letB : String → Option String → Option Expr → Instr
  | compound : String → String → Expr → Instr
  | ret : Option Expr → Instr
  | whileL : Expr → List Instr → Instr

/-- `FunctionDef` from `runner.py`. -/
structure FunctionDef where
  params : List (String × Option String) := []
  body : List Instr := []

/-- `Program` from `runner.py` (the function map as an association list). -/
structure Program where
  functions : List (String × FunctionDef) := []

/-- `ContextObjects.get_ctx`: raises (`none`) when no stack frame is active;
otherwise returns the node's context from the top frame, a fresh default
context when none was stored yet (the source inserts the fresh context into
the frame dict; observationally the pure default is the same). -/
def get_ctx (s : MState) (path : List Nat) : Option Ctx :=
  match s.call_stack with
  | [] => none
  | f :: _ => some (((f.contexts.find? fun kv => decide (kv.1 = path)).map Prod.snd).getD ⟨0, []⟩)

/-- Store a node's context in the top frame (mutation of the context object
held in `frame.contexts`).  A no-op on an empty call stack (unreachable:
every writer first calls `get_ctx`). -/
def set_ctx (s : MState) (path : List Nat) (c : Ctx) : MState :=
  match s.call_stack with
  | [] => s
  | f :: rest => { s with call_stack := { f with contexts := (path, c) :: f.contexts } :: rest }

/-- `pathExtends pre q` holds when `pre` is an initial segment of `q`:
the node at `q` is in the subtree of the node at `pre`. -/
def pathExtends : List Nat → List Nat → Bool
  | [], _ => true
  | _ :: _, [] => false
  | a :: xs, b :: ys => a == b && pathExtends xs ys

/-- `ContextObjects.reset_ctx` (the recursive reset used by the scheduler
before entering a while body): reset this node's context and every
descendant's.  Dropping the entries equals resetting them because `get_ctx`
defaults to a fresh context. -/
def reset_subtree (s : MState) (path : List Nat) : MState :=
  match s.call_stack with
  | [] => s
  | f :: rest =>
    { s with call_stack :=
        { f with contexts := f.contexts.filter fun kv => ! pathExtends path kv.1 } :: rest }

/-- `bool(...)` on a cell value, used by `WhileLoop.should_continue` and
`IfElseBlock`. -/
def pyTruthy : Val → Bool
  | .vnone => false
  | .vint n => decide (n ≠ 0)
  | .vstr t => decide (t ≠ "")

/-- Whether the first string's characters start with the second's. -/
def charsStartWith : List Char → List Char → Bool
  | _, [] => true
  | [], _ :: _ => false
  | a :: xs, b :: ys => a == b && charsStartWith xs ys

/-- `str.startswith(pre)` (over the character lists, so that the kernel can
evaluate it in witnesses). -/
def strStarts (t pre : String) : Bool := charsStartWith t.data pre.data

/-- Substring containment over character lists. -/
def charsContain : List Char → List Char → Bool
  | [], pat => pat.isEmpty
  | a :: rest, pat => charsStartWith (a :: rest) pat || charsContain rest pat

/-- Python `"Vec" in typ`. -/
def hasVecSub (t : String) : Bool := charsContain t.data "Vec".data

/-- Python `'[' in label`. -/
def strHasChar (t : String) (c : Char) : Bool := t.data.contains c

/-- The operator table of `BinaryOp.evaluate`.  Integer division is Python
floor division (`//`), hence `Int.fdiv`; division by zero and unknown
operators raise; `==`/`!=` are Python equality (cross-type comparison is
simply unequal, `None == None` is true); other operators on non-integer
operand combinations raise `TypeError` except string concatenation. -/
def binOpVal (op : String) (a b : Val) : Option Val :=
  match op, a, b with
  | "+", .vint x, .vint y => some (.vint (x + y))
  | "+", .vstr x, .vstr y => some (.vstr (x ++ y))
  | "-", .vint x, .vint y => some (.vint (x - y))
  | "*", .vint x, .vint y => some (.vint (x * y))
  | "/", .vint x, .vint y => if y = 0 then none else some (.vint (Int.fdiv x y))
  | "==", x, y => some (.vint (if x = y then 1 else 0))
  | "!=", x, y => some (.vint (if x = y then 0 else 1))
  | "<", .vint x, .vint y => some (.vint (if x < y then 1 else 0))
  | ">", .vint x, .vint y => some (.vint (if y < x then 1 else 0))
  | _, _, _ => none

/-- The operator table of `CompoundAssignment.execute` (`+= -= *= /=`,
division again Python `//`). -/
def compoundOpVal (op : String) (cur nv : Val) : Option Val :=
  match op, cur, nv with
  | "+=", .vint a, .vint b => some (.vint (a + b))
  | "+=", .vstr a, .vstr b => some (.vstr (a ++ b))
  | "-=", .vint a, .vint b => some (.vint (a - b))
  | "*=", .vint a, .vint b => some (.vint (a * b))
  | "/=", .vint a, .vint b => if b = 0 then none else some (.vint (Int.fdiv a b))
  | _, _, _ => none

/-- `Variable.evaluate` after the address was resolved (`is_vec` tells which
lookup succeeded): arrays answer with their base address, Vecs with the
metadata base address, scalars with the cell's value/type/pointer flag. -/
def evalVarAt (s : MState) (addr : Int) (is_vec : Bool) : Option Outcome :=
  let cell := s.mem addr
  if cell.typ = "array" then
    some (.done { values := [.vint addr], typ := cell.typ })
  else
    match cell.label with
    | none => none
    | some lbl =>
      if strHasChar lbl '[' then
        some (.done { values := [.vint addr], typ := cell.typ })
      else if is_vec then
        some (.done { values := [.vint addr], typ := "Vec" })
      else
        some (.done { values := [cell.value], typ := cell.typ, is_pointer := cell.is_pointer })

/-- Final phase of `BinaryOp.evaluate`: fetch both stored operand results
(`ctx.get` returning `None` raises on `.get_scalar()`), collapse to scalars
and apply the operator table.  No state is modified. -/
def binopFinish (s : MState) (op : String) (path : List Nat) : Option (MState × Outcome) :=
  (get_ctx s path).bind fun ctx =>
  match ctxGet ctx "left_result", ctxGet ctx "right_result" with
  | some (.res lr), some (.res rr) =>
    (getScalar lr).bind fun lv =>
    (getScalar rr).bind fun rv =>
    (binOpVal op lv rv).map fun v => (s, .done { values := [v], typ := "i32" })
  | _, _ => none

/-- One operand phase of `BinaryOp.evaluate`: propagate suspension, or store
the sub-result under `key`, advance the step counter, and continue with `k`
(the Python code falls through to the next `if`). -/
def binopStep (phaseRes : Option (MState × Outcome)) (key : String) (path : List Nat)
    (k : MState → Option (MState × Outcome)) : Option (MState × Outcome) :=
  phaseRes.bind fun so =>
  match so.2 with
  | .incomplete => some (so.1, .incomplete)
  | .done r =>
    (get_ctx so.1 path).bind fun c =>
    k (set_ctx so.1 path (ctxAdvance (ctxStore c key (.res r))))

/-- `params[i]`'s declared type in `FunctionCall.evaluate` (`None` when the
function is unknown or the parameter is untyped). -/
def paramTypeAt (prog : Program) (fn : String) (i : Nat) : Option String :=
  match prog.functions.lookup fn with
  | some fd => (fd.params.get? i).bind Prod.snd
  | none => none

/-- `range(num_args)` collection of the stored `arg_i` results
(`FunctionCall.evaluate`, step `N`). -/
def collectArgs (c : Ctx) (n : Nat) : Option (List (List Val)) :=
  (List.range n).mapM fun i =>
    match ctxGet c ("arg_" ++ toString i) with
    | some (.res r) => some r.values
    | _ => none

/-- `Expression.evaluate` for the modelled fragment, resumable via the
per-node context at `path` in the current frame.  The extra `fuel` argument
bounds the recursion depth of the expression tree so that the definition is
structurally recursive (and hence kernel-evaluable); every use below
supplies fuel exceeding the expression depth, where the translation is
exact.  `Literal` answers immediately; `Variable` resolves the name with the
`<name>.cap` fallback; `BinaryOp` runs its two operand phases and the final
computation; `FunctionCall` evaluates one argument per step, then signals
`ready_to_call` with the collected `arg_values` and suspends (the frame push
is the scheduler's job), and once resumed past the call yields the stored
`function_result`.  Vec- and fixed-array-typed parameters (the by-value
metadata/deep copies) are outside the fragment and map to `none`. -/
def eval (prog : Program) : Nat → Expr → MState → List Nat → Option (MState × Outcome)
  | 0, _, _, _ => none
  | _ + 1, .lit v, s, _ => some (s, .done { values := [.vint v], typ := "i32" })
  | _ + 1, .var n, s, _ =>
    (match get_addr s n with
     | some addr => (evalVarAt s addr false).map fun o => (s, o)
     | none =>
       match get_addr s (n ++ ".cap") with
       | some addr => (evalVarAt s addr true).map fun o => (s, o)
       | none => none)
  | fuel + 1, .binop l op r, s0, path =>
    (get_ctx s0 path).bind fun ctx0 =>
    let k1 : MState → Option (MState × Outcome) := fun s1 =>
      (get_ctx s1 path).bind fun ctx1 =>
      if ctx1.step = 1 then
        binopStep (eval prog fuel r s1 (path ++ [1])) "right_result" path
          fun s2 => binopFinish s2 op path
      else binopFinish s1 op path
    if ctx0.step = 0 then
      binopStep (eval prog fuel l s0 (path ++ [0])) "left_result" path k1
    else k1 s0
  | fuel + 1, .call fn args, s0, path =>
    (get_ctx s0 path).bind fun ctx =>
    if hlt : ctx.step < args.length then
      (eval prog fuel (args.get ⟨ctx.step, hlt⟩) s0 (path ++ [ctx.step])).bind fun so =>
      match so.2 with
      | .incomplete => some (so.1, .incomplete)
      | .done r =>
        (match paramTypeAt prog fn ctx.step with
         | some t =>
           if strStarts t "Vec" || strStarts t "[" then none
           else some r
         | none => some r).bind fun r2 =>
        (get_ctx so.1 path).bind fun c =>
        some (set_ctx so.1 path (ctxAdvance (ctxStore c ("arg_" ++ toString ctx.step) (.res r2))),
          .incomplete)
    else if ctx.step = args.length then
      (collectArgs ctx args.length).bind fun argvals =>
      some (set_ctx s0 path
        (ctxStore (ctxStore ctx "ready_to_call" (.flag true)) "arg_values" (.argv argvals)),
        .incomplete)
    else if ctx.step = args.length + 1 then
      match ctxGet ctx "function_result" with
      | some (.res r) => some (s0, .done r)
      | _ => none
    else
      some (s0, .incomplete)

/-- `VariableLValue.get_address`: plain name lookup with the `<name>.cap`
fallback for Vecs. -/
def lvalVarAddr (s : MState) (name : String) : Option Int :=
  match get_addr s name with
  | some a => some a
  | none => get_addr s (name ++ ".cap")

/-- Allocation phase of `LetBinding.execute` (step 1): shape the stack
storage by the stored result's type tag.  `"Vec"` → unpack and copy the
three metadata words (`letVecAlloc`); `"VecLiteral"`/`"Box"`/multi-value
array results are heap-allocating branches outside the modelled fragment
(`none`); otherwise allocate one scalar slot. -/
def letFinish (s : MState) (name : String) (path : List Nat) : Option (MState × Bool) :=
  (get_ctx s path).bind fun ctx =>
  match ctxGet ctx "expr_result" with
  | some (.res r) =>
    if r.typ = "Vec" then
      (letVecUnpack r.values).bind fun cv =>
      (letVecAlloc s name cv.1 cv.2.1 cv.2.2).map fun s1 => (s1, true)
    else if r.typ = "VecLiteral" ∨ r.typ = "Box" ∨ 1 < r.values.length then
      none
    else
      (getScalar r).bind fun v =>
      (alloc_stack_var s name r.typ v r.is_pointer).map fun x => (x.2, true)
  | _ => none

/-- Write-back phase of `CompoundAssignment.execute` (step 1): resolve the
target address, read the current value, apply the operator and store. -/
def compoundFinish (s : MState) (lvname op : String) (path : List Nat) : Option (MState × Bool) :=
  (get_ctx s path).bind fun ctx =>
  match ctxGet ctx "expr_result" with
  | some (.res r) =>
    (lvalVarAddr s lvname).bind fun addr =>
    (getScalar r).bind fun nv =>
    (compoundOpVal op (s.mem addr).value nv).map fun v =>
      ({ s with mem := setValue s.mem addr v }, true)
  | _ => none

/-- `Instruction.execute` for the modelled fragment.  The returned `Bool`
is `True` for `COMPLETE`, `False` for `INCOMPLETE`; `none` models raised
exceptions.  `LetBinding` and `CompoundAssignment` evaluate their
initializer in step 0 (falling through to the allocation/write-back phase
in the same call when it completes) and resume directly in the final phase
when their context was advanced (in particular by the scheduler's
return-value injection).  `Return` evaluates its expression, repackages a
Vec result via `returnPackVec` (fixed-array returns are outside the
fragment), and stores `return_result` in its own context.  `WhileLoop`
evaluates its condition, resets the condition node's own context, stores
`condition_result` and reports `INCOMPLETE` for the scheduler. -/
def execI (prog : Program) (fuel : Nat) : Instr → MState → List Nat → Option (MState × Bool)
  | .letB name typ e, s0, path =>
    (get_ctx s0 path).bind fun ctx0 =>
    if ctx0.step = 0 then
      match e with
      | none =>
        (alloc_stack_var s0 name (typ.getD "i32") .vnone false).map fun x => (x.2, true)
      | some ex =>
        (eval prog fuel ex s0 (path ++ [0])).bind fun so =>
        match so.2 with
        | .incomplete => some (so.1, false)
        | .done r =>
          (get_ctx so.1 path).bind fun c =>
          letFinish (set_ctx so.1 path (ctxAdvance (ctxStore c "expr_result" (.res r)))) name path
    else letFinish s0 name path
  | .compound lvname op e, s0, path =>
    (get_ctx s0 path).bind fun ctx0 =>
    if ctx0.step = 0 then
      (eval prog fuel e s0 (path ++ [0])).bind fun so =>
      match so.2 with
      | .incomplete => some (so.1, false)
      | .done r =>
        (get_ctx so.1 path).bind fun c =>
        compoundFinish (set_ctx so.1 path (ctxAdvance (ctxStore c "expr_result" (.res r)))) lvname op path
    else compoundFinish s0 lvname op path
  | .ret e, s0, path =>
    match e with
    | none => some (s0, true)
    | some ex =>
      (eval prog fuel ex s0 (path ++ [0])).bind fun so =>
      match so.2 with
      | .incomplete => some (so.1, false)
      | .done r =>
        if strStarts r.typ "[" then none
        else
          (if r.typ = "Vec" ∨ strStarts r.typ "Vec" then
            (getScalar r).bind fun bv =>
            match bv with
            | .vint base => some { values := returnPackVec so.1.mem base, typ := "Vec" }
            | _ => none
          else some r).bind fun r2 =>
          (get_ctx so.1 path).bind fun c =>
          some (set_ctx so.1 path (ctxStore c "return_result" (.res r2)), true)
  | .whileL cond _, s0, path =>
    (eval prog fuel cond s0 (path ++ [0])).bind fun so =>
    match so.2 with
    | .incomplete => some (so.1, false)
    | .done r =>
      let s2 := set_ctx so.1 (path ++ [0]) ⟨0, []⟩
      (get_ctx s2 path).bind fun c =>
      some (set_ctx s2 path (ctxStore c "condition_result" (.res r)), false)

/-- `WhileLoop.should_continue`: truthiness of the stored condition result. -/
def should_continue (s : MState) (path : List Nat) : Option Bool :=
  (get_ctx s path).bind fun ctx =>
  match ctxGet ctx "condition_result" with
  | some (.res r) => (getScalar r).map pyTruthy
  | _ => none

/-- `FunctionDef.param_size`: 1 per reference, 3 per Vec, `N` per fixed
array (the `[T; N]` regex parse is outside the fragment — no modelled
program has array-typed parameters — and the source's regex-failure
fallback of 1 is used), 1 per scalar. -/
def param_size (params : List (String × Option String)) : Nat :=
  params.foldl (fun total pr =>
    match pr.2 with
    | some t =>
      if strStarts t "&" then total + 1
      else if hasVecSub t then total + 3
      else if strStarts t "[" then total + 1
      else total + 1
    | none => total + 1) 0

/-- `ProgramRunner._calc_body_size`: 1 slot per scalar `let` (3 when the
declared type mentions `Vec`), body size per `while` loop.  The fragment's
`Expr` has no `VecMacro`/`ArrayLiteral`, so an unannotated `let` always
counts 1, exactly as the source's final fallback; `[T; N]` annotations are
outside the fragment (the source's regex-failure fallback of 1 is kept).
The `fuel` argument dominates the instruction count and keeps the recursion
structural; the wrapper supplies fuel 100, exact for every modelled
program. -/
def calc_body_size_go : Nat → List Instr → Nat
  | 0, _ => 0
  | _ + 1, [] => 0
  | fuel + 1, i :: rest =>
    (match i with
     | .letB _ (some t) _ => if hasVecSub t then 3 else if strStarts t "[" then 1 else 1
     | .letB _ none _ => 1
     | .whileL _ b => calc_body_size_go fuel b
     | _ => 0) + calc_body_size_go fuel rest

def calc_body_size (body : List Instr) : Nat := calc_body_size_go 100 body

/-- `ProgramRunner._calc_frame_size`. -/
def calc_frame_size (fd : FunctionDef) : Nat :=
  max (param_size fd.params + calc_body_size fd.body) 1

/-- An entry of the Program Counter's `block_stack`: the block's instruction
list and its saved resume index, plus the node-path bookkeeping (`base` and
`off`) that identifies the block's instructions in the program tree — the
source gets this identity for free from Python object identity. -/
structure BlockEntry where
  body : List Instr
  base : List Nat
  off : Nat
  resume : Nat

/-- `ProgramCounter`. -/
structure PC where
  fn : String
  line : Nat
  block_stack : List BlockEntry := []
  ret_stack : List (String × Nat × List BlockEntry) := []

/-- The full runner state: memory model plus program counter. -/
structure RState where
  m : MState
  pc : PC

/-- Resolve the current instruction list (innermost open block, else the
current function's body) together with its path bookkeeping. -/
def currentBody (prog : Program) (pc : PC) : Option (List Instr × List Nat × Nat) :=
  match pc.block_stack with
  | be :: _ => some (be.body, be.base, be.off)
  | [] => (prog.functions.lookup pc.fn).map fun fd => (fd.body, [], 0)

/-- `ProgramRunner._unwind_if_needed`: pop every finished block, resuming at
each saved index. -/
def unwindGo : List BlockEntry → Nat → List BlockEntry × Nat
  | [], line => ([], line)
  | be :: rest, line =>
    if be.body.length ≤ line then unwindGo rest be.resume else (be :: rest, line)

/-- `ProgramRunner._handle_return`: pop the callee frame, restore the
caller's saved function/index/block-stack from the return stack, and inject
the return value into the waiting instruction's context when that
instruction is a let/assignment/compound assignment (the fragment has
`letB` and `compound`) and a result exists.  When the return stack is empty
(returned from `main`), park the line index past the end of `main`'s
body. -/
def handle_return (prog : Program) (st : RState) (rr : Option EvalResult) : Option RState :=
  let m1 := pop_frame st.m
  match st.pc.ret_stack with
  | (fnName, line, blocks) :: rest =>
    let pc1 : PC := { fn := fnName, line := line, block_stack := blocks, ret_stack := rest }
    (currentBody prog pc1).bind fun bb =>
    (bb.1.get? line).bind fun waiting =>
    let wpath := bb.2.1 ++ [line + bb.2.2]
    match waiting, rr with
    | .letB _ _ _, some r =>
      (get_ctx m1 wpath).bind fun c =>
      some { m := set_ctx m1 wpath (ctxAdvance (ctxStore c "expr_result" (.res r))), pc := pc1 }
    | .compound _ _ _, some r =>
      (get_ctx m1 wpath).bind fun c =>
      some { m := set_ctx m1 wpath (ctxAdvance (ctxStore c "expr_result" (.res r))), pc := pc1 }
    | _, _ => some { m := m1, pc := pc1 }
  | [] =>
    (prog.functions.lookup "main").map fun mainFd =>
      { m := m1, pc := { st.pc with line := mainFd.body.length } }

/-- Argument binding of the call transition in `ProgramRunner.step`
(step 4, "Map arguments"): reference/pointer types and scalars take one
slot, Vec metadata is bound via `bindVecParam`; fixed-array parameters are
outside the fragment.  A missing `arg_values` entry is the source's
`IndexError`. -/
def bindParams (s : MState) : List (String × Option String) → List (List Val) → Option MState
  | [], _ => some s
  | (pname, ptyp) :: ps, vals :: vs =>
    let is_ptr : Bool := match ptyp with
      | some t => strStarts t "&" || strStarts t "*"
      | none => false
    let is_array : Bool := !is_ptr && (match ptyp with | some t => strStarts t "[" | none => false)
    let is_vec : Bool := !is_ptr && (match ptyp with | some t => strStarts t "Vec" | none => false)
    if is_array then none
    else if is_vec then
      (bindVecParam s pname vals).bind fun s1 => bindParams s1 ps vs
    else
      match vals with
      | v :: _ =>
        (alloc_stack_var s pname (ptyp.getD "i32") v is_ptr).bind fun x => bindParams x.2 ps vs
      | [] => none
  | _ :: _, [] => none

/-- `ProgramRunner.step()`.  Returns the reported `Bool` ("did the visible
position advance") together with the next state; `none` models raised
exceptions.  Mirrors the source: (1) resolve the current body; (2) past the
end → `_handle_block_end` and report `True`; (3) execute the instruction;
on `COMPLETE`, a `Return` hands off to `_handle_return` and **reports
`False`**, any other instruction advances the index, unwinds, and reports
`True`; on `INCOMPLETE`, a target `FunctionCall` that signalled
`ready_to_call` performs the call transition (save caller position, push
the sized frame, bind arguments, jump) and reports `True`, a `WhileLoop`
descends into its body (resetting the loop subtree's contexts) or falls
through, reporting `True`; otherwise the position is unchanged
(`False`). -/
def stepR (prog : Program) (fuel : Nat) (st : RState) : Option (Bool × RState) :=
  (currentBody prog st.pc).bind fun bb =>
  let body := bb.1
  let base := bb.2.1
  let off := bb.2.2
  if body.length ≤ st.pc.line then
    match st.pc.block_stack with
    | be :: rest =>
      some (true, { st with pc := { st.pc with block_stack := rest, line := be.resume } })
    | [] =>
      match st.pc.ret_stack with
      | [] => some (true, st)
      | _ :: _ => (handle_return prog st none).map fun st' => (true, st')
  else
    (body.get? st.pc.line).bind fun instr =>
    let ipath := base ++ [st.pc.line + off]
    (execI prog fuel instr st.m ipath).bind fun er =>
    let m1 := er.1
    if er.2 then
      match instr with
      | .ret _ =>
        (get_ctx m1 ipath).bind fun c =>
        let rr : Option EvalResult :=
          match ctxGet c "return_result" with
          | some (.res r) => some r
          | _ => none
        (handle_return prog { m := m1, pc := st.pc } rr).map fun st' => (false, st')
      | _ =>
        let pc1 : PC := { st.pc with line := st.pc.line + 1 }
        let ub := unwindGo pc1.block_stack pc1.line
        some (true, { m := m1, pc := { pc1 with block_stack := ub.1, line := ub.2 } })
    else
      let target : Option Expr :=
        match instr with
        | .ret e => e
        | .letB _ _ e => e
        | _ => none
      match target with
      | some (.call fnName _) =>
        (get_ctx m1 (ipath ++ [0])).bind fun cctx =>
        (match ctxGet cctx "ready_to_call" with
         | some (.flag true) =>
           match ctxGet cctx "arg_values" with
           | some (.argv argvals) =>
             let m2 := set_ctx m1 (ipath ++ [0]) (ctxAdvance (ctxStore cctx "ready_to_call" (.flag false)))
             (prog.functions.lookup fnName).bind fun fd =>
             let rdest : Option String := match instr with | .letB nm _ _ => some nm | _ => none
             let ralloc : Bool := match instr with | .letB _ _ _ => true | _ => false
             (push_frame m2 fnName (calc_frame_size fd) rdest ralloc).bind fun m3 =>
             (bindParams m3 fd.params argvals).map fun m4 =>
             (true, { m := m4,
                      pc := { fn := fnName, line := 0, block_stack := [],
                              ret_stack := (st.pc.fn, st.pc.line, st.pc.block_stack) :: st.pc.ret_stack } })
           | _ => none
         | _ => some (false, { m := m1, pc := st.pc }))
      | _ =>
        match instr with
        | .whileL _ wbody =>
          (should_continue m1 ipath).bind fun cont =>
          if cont then
            let m2 := reset_subtree m1 ipath
            some (true, { m := m2,
                          pc := { st.pc with
                                  block_stack := ⟨wbody, ipath, 1, st.pc.line⟩ :: st.pc.block_stack,
                                  line := 0 } })
          else some (true, { m := m1, pc := { st.pc with line := st.pc.line + 1 } })
        | _ => some (false, { m := m1, pc := st.pc })

/-- `ProgramRunner.__init__`: program counter at `("main", 0)` and the
`main` frame pushed with its computed size. -/
def initRunner (prog : Program) : Option RState :=
  (prog.functions.lookup "main").bind fun mainFn =>
  (push_frame initMState "main" (calc_frame_size mainFn) none false).map fun m =>
  { m := m, pc := { fn := "main", line := 0 } }

/-- Iterated `step()` calls (dropping the reported booleans). -/
def runSteps (prog : Program) (fuel : Nat) : Nat → RState → Option RState
  | 0, st => some st
  | n + 1, st => (stepR prog fuel st).bind fun bs => runSteps prog fuel n bs.2

/-- Program for the return-step observation: `main` is
`let x = f();` and `f` is `return 5;`. -/
def c1prog : Program :=
  { functions :=
      [("main", { params := [], body := [.letB "x" none (some (.call "f" []))] }),
       ("f", { params := [], body := [.ret (some (.lit 5))] })] }

/-- Fallback runner state for `Option.getD`. -/
def rsDefault : RState := { m := initMState, pc := { fn := "main", line := 0 } }

def c1s0 : RState := (initRunner c1prog).getD rsDefault

/-- After one step the runner has jumped into `f`. -/
def c1s1 : RState := ((stepR c1prog 10 c1s0).getD (false, c1s0)).2

/-- After the second step the completed `Return` has been handed off. -/
def c1s2 : RState := ((stepR c1prog 10 c1s1).getD (false, c1s1)).2

/-- C1 (failing input): executing `let x = f();` with `f` ending in
`return 5;`.  The step that completes the `Return` does hand off to the
return-handling routine — the callee frame is popped (call-stack depth back
to 1), the caller's saved function/index/block-stack are restored
(`main`, line 0, no open blocks), and the return value `5` is injected into
the waiting `let`'s Execution Context, whose step counter is advanced — but
`step()` reports `False` ("position unchanged"), although the program
counter moved from `f` back to `main`; its own docstring promises `True`
whenever the PC moved to a different line or function, and the very next
step then completes the `let`, storing `x = 5`. -/
theorem step_return_reports_position_unchanged :
    stepR c1prog 10 c1s0 = some (true, c1s1) ∧
    c1s1.pc.fn = "f" ∧ c1s1.m.call_stack.length = 2 ∧
    stepR c1prog 10 c1s1 = some (false, c1s2) ∧
    c1s2.pc.fn = "main" ∧ c1s2.pc.line = 0 ∧ c1s2.pc.block_stack.length = 0 ∧
    c1s2.m.call_stack.length = 1 ∧
    (get_ctx c1s2.m [0]).map Ctx.step = some 1 ∧
    ((get_ctx c1s2.m [0]).bind fun c => ctxGet c "expr_result")
      = some (.res { values := [.vint 5], typ := "i32", is_pointer := false }) ∧
    ((stepR c1prog 10 c1s2).map Prod.fst = some true ∧
      ((stepR c1prog 10 c1s2).map fun bs => ((bs.2.m.mem 25).value, (bs.2.m.mem 25).label))
        = some (.vint 5, some "x")) :=
  ⟨rfl, by decide, by decide, rfl, by decide, by decide, by decide, by decide,
   by decide, by decide, by decide, by decide⟩

/-- Program for the frame-size observation: `main` is
`let i = 0; while i < 2 { let x = 1; i += 1; }`. -/
def c2prog : Program :=
  { functions :=
      [("main",
        { params := [],
          body := [.letB "i" none (some (.lit 0)),
                   .whileL (.binop (.var "i") "<" (.lit 2))
                     [.letB "x" none (some (.lit 1)),
                      .compound "i" "+=" (.lit 1)]] })] }

def c2s0 : RState := (initRunner c2prog).getD rsDefault

/-- The run of `c2prog` to completion (8 scheduler steps). -/
def c2fin : RState := (runSteps c2prog 10 8 c2s0).getD rsDefault

/-- C2 (failing input): the scheduler computes a frame size of 2 for
`main` (`let i` = 1 slot, while body = 1 slot, "loops use the same stack
slots repeatedly" per the source comment), but executing the program
allocates a fresh slot for `let x` on every loop iteration:
`alloc_stack_var` never reuses a slot, so after the two iterations the
frame's `slots_allocated` is 3, exceeding the reserved extent of 2, and the
third allocation landed at address 23 — below the frame's base address 24,
outside its reserved range — while the loop condition was evaluated to
completion (`i = 2`).  The statically computed frame size is therefore not
an over-approximation of the slots allocated during execution. -/
theorem frame_size_not_over_approximated :
    (c2prog.functions.lookup "main").map calc_frame_size = some 2 ∧
    runSteps c2prog 10 8 c2s0 = some c2fin ∧
    c2fin.m.call_stack.map (fun f => (f.base_addr, (f.size : Int), (f.slots_allocated : Int)))
      = [(24, 2, 3)] ∧
    (c2fin.m.call_stack.all fun f => decide (f.size < f.slots_allocated)) = true ∧
    (c2fin.m.mem 23).label = some "x" ∧ (c2fin.m.mem 23).frame_idx = 0 ∧
    (c2fin.m.mem 25).value = .vint 2 ∧
    c2fin.pc.line = 2 :=
  ⟨by decide, rfl, by decide, by decide, by decide, by decide, by decide, by decide⟩

def c3state : MState := (push_frame initMState "main" 1 none false).getD initMState

/-- C3: `BinaryOp.evaluate` divides with Python floor semantics (`//`).
On operands evaluating to `-7` and `2` with operator `"/"`, the result is
`-4` — the floor — and not `-3`, which truncation toward zero
(`Int.tdiv`) would give. -/
theorem binop_floor_division :
    (eval { functions := [] } 10 (.binop (.lit (-7)) "/" (.lit 2)) c3state []).map
        (fun x => x.2)
      = some (.done { values := [.vint (-4)], typ := "i32", is_pointer := false }) ∧
    Int.fdiv (-7) 2 = -4 ∧ Int.tdiv (-7) 2 = -3 := by
  refine ⟨by decide, by decide, by decide⟩

theorem pathExtends_self (p : List Nat) : pathExtends p p = true := by
  induction p with
  | nil => rfl
  | cons a xs ih => simp [pathExtends, ih]

theorem pathExtends_of_append (p l q : List Nat) (h : pathExtends (p ++ l) q = true) :
    pathExtends p q = true := by
  induction p generalizing q with
  | nil => rfl
  | cons a xs ih =>
    cases q with
    | nil => simp [pathExtends] at h
    | cons b ys =>
      simp only [List.cons_append, pathExtends, Bool.and_eq_true, beq_iff_eq] at h ⊢
      exact ⟨h.1, ih ys h.2⟩

theorem pathExtends_append_self (p : List Nat) (j : Nat) : pathExtends (p ++ [j]) p = false := by
  induction p with
  | nil => rfl
  | cons a xs ih => simp [pathExtends, ih]

theorem ctxGet_store_same (c : Ctx) (k : String) (v : SVal) : ctxGet (ctxStore c k v) k = some v := by
  simp [ctxGet, ctxStore, List.find?]

theorem ctxGet_store_other (c : Ctx) (k k' : String) (v : SVal) (h : k' ≠ k) :
    ctxGet (ctxStore c k v) k' = ctxGet c k' := by
  simp [ctxGet, ctxStore, List.find?, show ¬(k = k') from fun hh => h hh.symm]

theorem ctxGet_advance (c : Ctx) (k : String) : ctxGet (ctxAdvance c) k = ctxGet c k := rfl

theorem get_ctx_some_stack {s : MState} {p : List Nat} {c : Ctx} (h : get_ctx s p = some c) :
    s.call_stack ≠ [] := by
  unfold get_ctx at h
  intro hc
  rw [hc] at h
  cases h

theorem get_ctx_set_ctx_same (s : MState) (p : List Nat) (c : Ctx) (hne : s.call_stack ≠ []) :
    get_ctx (set_ctx s p c) p = some c := by
  unfold set_ctx
  cases hcs : s.call_stack with
  | nil => exact absurd hcs hne
  | cons f rest =>
    unfold get_ctx
    simp [List.find?]

theorem get_ctx_set_ctx_other (s : MState) (p q : List Nat) (c : Ctx) (h : q ≠ p) :
    get_ctx (set_ctx s p c) q = get_ctx s q := by
  unfold set_ctx
  cases hcs : s.call_stack with
  | nil => rfl
  | cons f rest =>
    unfold get_ctx
    rw [hcs]
    simp [List.find?, show ¬(p = q) from fun hh => h hh.symm]

theorem binopFinish_state (s : MState) (op : String) (path : List Nat) (s' : MState) (o : Outcome)
    (h : binopFinish s op path = some (s', o)) : s' = s := by
  unfold binopFinish at h
  cases hc : get_ctx s path with
  | none => rw [hc] at h; cases h
  | some c =>
    rw [hc] at h
    simp only [Option.some_bind] at h
    split at h
    · simp only [Option.bind_eq_some, Option.map_eq_some'] at h
      obtain ⟨lv, _, rv, _, v, _, h2⟩ := h
      exact (congrArg Prod.fst h2).symm
    · cases h

/-- Evaluating an expression rooted at `path` only touches Execution
Contexts of nodes in that subtree: the context of any node whose path does
not extend `path` is unchanged.  (This is the frame property behind the
suspension contract: a child evaluation can never disturb its parent's
phase counter.) -/
theorem eval_ctx_frame (prog : Program) :
    ∀ (fuel : Nat) (e : Expr) (s : MState) (path : List Nat) (s' : MState) (o : Outcome),
      eval prog fuel e s path = some (s', o) →
      ∀ q : List Nat, pathExtends path q = false → get_ctx s' q = get_ctx s q := by
  intro fuel
  induction fuel with
  | zero => intro e s path s' o h; simp [eval] at h
  | succ n ih =>
    intro e s path s' o h q hq
    have hqpath : q ≠ path := fun hc => by rw [hc, pathExtends_self] at hq; cases hq
    have hfalse : ∀ j : Nat, pathExtends (path ++ [j]) q = false := by
      intro j
      cases hext : pathExtends (path ++ [j]) q with
      | false => rfl
      | true =>
        have hh := pathExtends_of_append path [j] q hext
        rw [hq] at hh
        simp at hh
    cases e with
    | lit v =>
      simp only [eval, Option.some.injEq, Prod.mk.injEq] at h
      rw [← h.1]
    | var nm =>
      simp only [eval] at h
      cases hga : get_addr s nm with
      | some a =>
        simp only [hga, Option.map_eq_some'] at h
        obtain ⟨o2, -, h2⟩ := h
        have h3 : s = s' := congrArg Prod.fst h2
        rw [← h3]
      | none =>
        simp only [hga] at h
        cases hga2 : get_addr s (nm ++ ".cap") with
        | some a =>
          simp only [hga2, Option.map_eq_some'] at h
          obtain ⟨o2, -, h2⟩ := h
          have h3 : s = s' := congrArg Prod.fst h2
          rw [← h3]
        | none => simp only [hga2] at h; exact Option.noConfusion h
    | binop l op r =>
      simp only [eval] at h
      cases hc0 : get_ctx s path with
      | none => simp only [hc0, Option.none_bind] at h; exact Option.noConfusion h
      | some c0 =>
        simp only [hc0, Option.some_bind] at h
        have inner : ∀ (sb : MState) (cb : Ctx), get_ctx sb q = get_ctx s q →
            ((if cb.step = 1 then
                binopStep (eval prog n r sb (path ++ [1])) "right_result" path
                  (fun s2 => binopFinish s2 op path)
              else binopFinish sb op path) = some (s', o)) →
            get_ctx s' q = get_ctx s q := by
          intro sb cb hsb hh
          by_cases hs1 : cb.step = 1
          · rw [if_pos hs1] at hh
            unfold binopStep at hh
            cases he : eval prog n r sb (path ++ [1]) with
            | none => simp only [he, Option.none_bind] at hh; exact Option.noConfusion hh
            | some p2 =>
              obtain ⟨sc, oc⟩ := p2
              simp only [he, Option.some_bind] at hh
              have hscq : get_ctx sc q = get_ctx sb q :=
                ih r sb (path ++ [1]) sc oc he q (hfalse 1)
              cases oc with
              | incomplete =>
                simp only [Option.some.injEq, Prod.mk.injEq] at hh
                rw [← hh.1, hscq, hsb]
              | done rr =>
                cases hcc : get_ctx sc path with
                | none => simp only [hcc, Option.none_bind] at hh; exact Option.noConfusion hh
                | some cc =>
                  simp only [hcc, Option.some_bind] at hh
                  have hfin := binopFinish_state _ op path s' o hh
                  rw [hfin, get_ctx_set_ctx_other _ _ _ _ hqpath, hscq, hsb]
          · rw [if_neg hs1] at hh
            have hfin := binopFinish_state _ op path s' o hh
            rw [hfin, hsb]
        by_cases hs0 : c0.step = 0
        · rw [if_pos hs0] at h
          unfold binopStep at h
          cases he : eval prog n l s (path ++ [0]) with
          | none => simp only [he, Option.none_bind] at h; exact Option.noConfusion h
          | some p2 =>
            obtain ⟨sa, oa⟩ := p2
            simp only [he, Option.some_bind] at h
            have hsaq : get_ctx sa q = get_ctx s q :=
              ih l s (path ++ [0]) sa oa he q (hfalse 0)
            cases oa with
            | incomplete =>
              simp only [Option.some.injEq, Prod.mk.injEq] at h
              rw [← h.1, hsaq]
            | done lr =>
              cases hca : get_ctx sa path with
              | none => simp only [hca, Option.none_bind] at h; exact Option.noConfusion h
              | some ca =>
                simp only [hca, Option.some_bind] at h
                have hnea : sa.call_stack ≠ [] := get_ctx_some_stack hca
                rw [get_ctx_set_ctx_same sa path (ctxAdvance (ctxStore ca "left_result" (SVal.res lr))) hnea] at h
                simp only [Option.some_bind] at h
                exact inner _ _ (by rw [get_ctx_set_ctx_other _ _ _ _ hqpath, hsaq]) h
        · rw [if_neg hs0] at h
          exact inner s c0 rfl h
    | call fn args =>
      simp only [eval] at h
      cases hc0 : get_ctx s path with
      | none => simp only [hc0, Option.none_bind] at h; exact Option.noConfusion h
      | some c0 =>
        simp only [hc0, Option.some_bind] at h
        split at h
        case isTrue hlt =>
          cases he : eval prog n (args.get ⟨c0.step, hlt⟩) s (path ++ [c0.step]) with
          | none => simp only [he, Option.none_bind] at h; exact Option.noConfusion h
          | some p2 =>
            obtain ⟨sa, oa⟩ := p2
            simp only [he, Option.some_bind] at h
            have hsaq : get_ctx sa q = get_ctx s q :=
              ih _ s (path ++ [c0.step]) sa oa he q (hfalse c0.step)
            cases oa with
            | incomplete =>
              simp only [Option.some.injEq, Prod.mk.injEq] at h
              rw [← h.1, hsaq]
            | done r =>
              cases hr2 : (match paramTypeAt prog fn c0.step with
                          | some t => if strStarts t "Vec" || strStarts t "[" then none else some r
                          | none => some r) with
              | none => simp only [hr2, Option.none_bind] at h; exact Option.noConfusion h
              | some r2 =>
                simp only [hr2, Option.some_bind] at h
                cases hca : get_ctx sa path with
                | none => simp only [hca, Option.none_bind] at h; exact Option.noConfusion h
                | some ca =>
                  simp only [hca, Option.some_bind, Option.some.injEq, Prod.mk.injEq] at h
                  rw [← h.1, get_ctx_set_ctx_other _ _ _ _ hqpath, hsaq]
        case isFalse hge =>
          by_cases heq1 : c0.step = args.length
          · rw [if_pos heq1] at h
            cases hargs : collectArgs c0 args.length with
            | none => simp only [hargs, Option.none_bind] at h; exact Option.noConfusion h
            | some av =>
              simp only [hargs, Option.some_bind, Option.some.injEq, Prod.mk.injEq] at h
              rw [← h.1, get_ctx_set_ctx_other _ _ _ _ hqpath]
          · rw [if_neg heq1] at h
            by_cases heq2 : c0.step = args.length + 1
            · rw [if_pos heq2] at h
              cases hfr : ctxGet c0 "function_result" with
              | none => simp only [hfr] at h; exact Option.noConfusion h
              | some sv =>
                cases sv with
                | res r =>
                  simp only [hfr, Option.some.injEq, Prod.mk.injEq] at h
                  rw [← h.1]
                | flag b => simp only [hfr] at h; exact Option.noConfusion h
                | argv av => simp only [hfr] at h; exact Option.noConfusion h
            · rw [if_neg heq2] at h
              simp only [Option.some.injEq, Prod.mk.injEq] at h
              rw [← h.1]

/-- C8: suspension of `BinaryOp.evaluate` is idempotent.  If a `BinaryOp`'s
Execution Context is mid-phase (`step == 1`, the left operand already
resolved and stored) and a call to `evaluate` completes with result `res`
(leaving state `s1`), then calling `evaluate` again on `s1` — with no
intervening memory mutation — returns the very same result and leaves the
state untouched: the completed phases are never re-executed, because each
phase runs only when `step` equals its index and the final phase only reads
the stored scratch entries. -/
theorem binop_resume_idempotent (prog : Program) (fuel : Nat) (l r : Expr) (op : String)
    (s s1 : MState) (path : List Nat) (res : EvalResult)
    (hstep : (get_ctx s path).map Ctx.step = some 1)
    (h1 : eval prog (fuel + 1) (.binop l op r) s path = some (s1, .done res)) :
    eval prog (fuel + 1) (.binop l op r) s1 path = some (s1, .done res) := by
  obtain ⟨c0, hc0, hs0⟩ : ∃ c0, get_ctx s path = some c0 ∧ c0.step = 1 := by
    cases hg : get_ctx s path with
    | none => rw [hg] at hstep; cases hstep
    | some c =>
      rw [hg] at hstep
      simp only [Option.map_some', Option.some.injEq] at hstep
      exact ⟨c, rfl, hstep⟩
  simp only [eval] at h1 ⊢
  simp only [hc0, Option.some_bind] at h1
  rw [if_neg (by omega : ¬ c0.step = 0), if_pos hs0] at h1
  unfold binopStep at h1
  cases he : eval prog fuel r s (path ++ [1]) with
  | none => simp only [he, Option.none_bind] at h1; exact Option.noConfusion h1
  | some p2 =>
    obtain ⟨s2, o2⟩ := p2
    simp only [he, Option.some_bind] at h1
    cases o2 with
    | incomplete => simp at h1
    | done rr =>
      have hloc : get_ctx s2 path = get_ctx s path :=
        eval_ctx_frame prog fuel r s (path ++ [1]) s2 (.done rr) he path
          (pathExtends_append_self path 1)
      rw [hloc, hc0] at h1
      simp only [Option.some_bind] at h1
      have hne2 : s2.call_stack ≠ [] := get_ctx_some_stack (hloc.trans hc0)
      set c2 := ctxAdvance (ctxStore c0 "right_result" (SVal.res rr)) with hc2def
      have hs1eq : s1 = set_ctx s2 path c2 :=
        binopFinish_state (set_ctx s2 path c2) op path s1 (.done res) h1
      have hgc : get_ctx s1 path = some c2 := by
        rw [hs1eq]
        exact get_ctx_set_ctx_same s2 path c2 hne2
      have hstep2 : c2.step = 2 := by
        rw [hc2def]
        show c0.step + 1 = 2
        rw [hs0]
      rw [hgc]
      simp only [Option.some_bind]
      rw [if_neg (by omega : ¬ c2.step = 0), if_neg (by omega : ¬ c2.step = 1)]
      rw [← hs1eq] at h1
      exact h1

/-- A state whose root-node context is mid-phase: `step = 1` with the left
operand result `-7` already stored. -/
def c8start : MState :=
  { mem := fun _ => defaultCell,
    call_stack := [{ name := "main", base_addr := 25, size := 1,
                     contexts := [([], ⟨1, [("left_result",
                       .res { values := [.vint (-7)], typ := "i32", is_pointer := false })]⟩)] }],
    sp := 25 }

def c8expr : Expr := .binop (.lit (-7)) "/" (.lit 2)

/-- State after the first (completing) `evaluate` call on `c8start`. -/
def c8s1 : MState := ((eval { functions := [] } 10 c8expr c8start []).getD (c8start, .incomplete)).1

theorem binop_resume_idempotent_witness :
    eval { functions := [] } 10 c8expr c8s1 [] =
      some (c8s1, .done { values := [.vint (-4)], typ := "i32", is_pointer := false }) :=
  binop_resume_idempotent { functions := [] } 9 (.lit (-7)) (.lit 2) "/" c8start c8s1 []
    { values := [.vint (-4)], typ := "i32", is_pointer := false } (by decide) rfl
